import Mathlib

/-!
Verification of the mountpoint-s3 reference-test harness and object-client
interface.  The harness (`tests/reftests/harness.rs`) drives an S3-backed
filesystem and a pure in-memory reference model side by side and checks
observational equivalence after every mutation.  The filesystem and the
reference model themselves are not part of the provided sources, so they are
modelled here from the specification; the harness logic, the `ETag` type and
the object-client error taxonomy are embedded from the sources.
-/

set_option maxHeartbeats 1000000

namespace Reftest

/-! ## Reference model

Modelled from the spec: §4.8 "Pure in-memory tree of `Directory(name → Node)`
and `File(content)`", exposing `lookup(path)`, `directories()`,
`add_file(path, content)`.  Children are a name-keyed association list with
distinct names (invariant 2: names are unique within a directory).
-/

inductive RNode where
  | dir (children : List (String × RNode))
  | file (content : List Nat)

/-- Association-list lookup by name, first match wins. -/
def assocStr {α : Type} : List (String × α) → String → Option α
  | [], _ => none
  | (m, a) :: rest, n => if m = n then some a else assocStr rest n

/-- Modelled from the spec: navigation of the reference tree along a path of
name components. -/
def getR : RNode → List String → Option RNode
  | t, [] => some t
  | RNode.dir cs, n :: rest =>
    match assocStr cs n with
    | some c => getR c rest
    | none => none
  | RNode.file _, _ :: _ => none

/-- Modelled from the spec: `add_file(path, content)` inserts a new file at
the given path (all intermediate directories must already exist); the new
entry is added to the target directory's child map. -/
def refAddFile : List String → List Nat → List (String × RNode) → List (String × RNode)
  | [], _, cs => cs
  | [n], c, cs => cs ++ [(n, RNode.file c)]
  | n :: m :: rest, c, cs =>
    cs.map fun e =>
      if e.1 = n then
        match e.2 with
        | RNode.dir cs2 => (e.1, RNode.dir (refAddFile (m :: rest) c cs2))
        | other => (e.1, other)
      else e

/-- Modelled from the spec: the paths of all (proper) subdirectories reachable
from a list of children. -/
def dirPaths : List (String × RNode) → List (List String)
  | [] => []
  | (n, RNode.dir cs2) :: rest =>
    ([n] :: (dirPaths cs2).map (fun p => n :: p)) ++ dirPaths rest
  | (_, RNode.file _) :: rest => dirPaths rest
termination_by l => sizeOf l
decreasing_by
  all_goals simp_wf
  all_goals omega

/-- The reference model: its root is always a directory. -/
structure Reference where
  children : List (String × RNode)

/-- Modelled from the spec: `reference.lookup(full_path)`. -/
def Reference.lookup (r : Reference) (p : List String) : Option RNode :=
  getR (RNode.dir r.children) p

/-- Modelled from the spec: `reference.directories()`; the root itself (the
empty path) always counts. -/
def Reference.directories (r : Reference) : List (List String) :=
  [] :: dirPaths r.children

/-- Modelled from the spec: `reference.add_file(full_path, contents)`. -/
def Reference.add_file (r : Reference) (p : List String) (c : List Nat) : Reference :=
  ⟨refAddFile p c r.children⟩

def Reference.root (r : Reference) : RNode := RNode.dir r.children

/-! ## The filesystem, modelled from the spec

Modelled from the spec: §3 (inode data model: stable ids, root is 1, ids
assigned from a monotonic counter and never reused; provenance Local/Remote),
§4.3 (`lookup`, `mknod`), §4.4 (readdir ordering: `.` at offset 0, `..` at
offset 1, then the children), §4.5 (ranged reads), §4.6 (append-only buffered
writes, flushed on `release` which converts Local → Remote), §9 (the inode
table is tree-shaped: every inode has one parent; we represent the table by
its tree, each node carrying its inode number).
-/

inductive FKind where
  | dir
  | file
deriving DecidableEq, Repr

inductive FNode where
  | dir (ino : Nat) (children : List (String × FNode))
  | file (ino : Nat) (isLoc : Bool) (content : List Nat)

def FNode.ino : FNode → Nat
  | .dir i _ => i
  | .file i _ _ => i

def FNode.kind : FNode → FKind
  | .dir _ _ => .dir
  | .file _ _ _ => .file

def RNode.fileType : RNode → FKind
  | .dir _ => .dir
  | .file _ => .file

/-- The filesystem state: the monotonic inode counter and the children of the
root directory (the root inode always exists and has number 1). -/
structure FS where
  nextIno : Nat
  rootChildren : List (String × FNode)

/-- `FUSE_ROOT_INODE` -/
def FUSE_ROOT_INODE : Nat := 1

def FS.root (fs : FS) : FNode := .dir FUSE_ROOT_INODE fs.rootChildren

mutual

/-- Resolve an inode number to its parent's inode number and its node, by
walking the tree from `t` whose own parent is `p`.  The root's parent is the
root itself. -/
def findWP (p : Nat) (t : FNode) (i : Nat) : Option (Nat × FNode) :=
  if t.ino = i then some (p, t)
  else
    match t with
    | .file _ _ _ => none
    | .dir j cs => findWPL j cs i
termination_by sizeOf t

/-- List version of [findWP]: first hit wins. -/
def findWPL (p : Nat) (cs : List (String × FNode)) (i : Nat) : Option (Nat × FNode) :=
  match cs with
  | [] => none
  | (_, c) :: rest =>
    match findWP p c i with
    | some r => some r
    | none => findWPL p rest i
termination_by sizeOf cs

end

def FS.find (fs : FS) (i : Nat) : Option (Nat × FNode) :=
  findWP FUSE_ROOT_INODE fs.root i

mutual

/-- Update the (unique, under well-formedness) node with inode number `i`. -/
def updIno (t : FNode) (i : Nat) (f : FNode → FNode) : FNode :=
  if t.ino = i then f t
  else
    match t with
    | .file _ _ _ => t
    | .dir j cs => .dir j (updInoL cs i f)
termination_by sizeOf t

def updInoL (cs : List (String × FNode)) (i : Nat) (f : FNode → FNode) :
    List (String × FNode) :=
  match cs with
  | [] => []
  | (n, c) :: rest => (n, updIno c i f) :: updInoL rest i f
termination_by sizeOf cs

end

def FNode.childrenOf : FNode → List (String × FNode)
  | .dir _ cs => cs
  | .file _ _ _ => []

/-- Errno values used by the modelled operations (from `libc`). -/
def ENOENT : Nat := 2
def EACCES : Nat := 13
def EEXIST : Nat := 17
def EINVAL : Nat := 22

def O_WRONLY : Nat := 1

/-- Modelled from the spec: `lookup(parent, name) → InodeAttr | NotFound`
(§4.3); the reply carries the child's inode number and kind. -/
def FS.lookup (fs : FS) (parent : Nat) (name : String) : Except Nat (Nat × FKind) :=
  match fs.find parent with
  | some (_, FNode.dir _ cs) =>
    match assocStr cs name with
    | some c => .ok (c.ino, c.kind)
    | none => .error ENOENT
  | _ => .error ENOENT

/-- A single `readdir` reply entry. -/
structure DirEntry where
  name : String
  ino : Nat
  kind : FKind
  offset : Nat
deriving DecidableEq, Repr

/-- The readdir reply entries of a directory's children, starting at offset
`k`. -/
def childEntries (k : Nat) : List (String × FNode) → List DirEntry
  | [] => []
  | (n, c) :: rest => ⟨n, c.ino, c.kind, k⟩ :: childEntries (k + 1) rest

/-- Modelled from the spec: the logical, stable readdir ordering of a
directory (§4.4): `.` first, `..` second (inode = parent), then the
children; the offset stored in an entry is the offset at which the next
readdir call resumes after it. -/
def dirEntries (selfIno parentIno : Nat) (cs : List (String × FNode)) : List DirEntry :=
  ⟨".", selfIno, .dir, 1⟩ :: ⟨"..", parentIno, .dir, 2⟩ :: childEntries 3 cs

/-- Modelled from the spec: `opendir` allocates a handle on a directory. -/
def FS.opendir (fs : FS) (i : Nat) : Except Nat Nat :=
  match fs.find i with
  | some (_, FNode.dir _ _) => .ok i
  | _ => .error ENOENT

/-- Modelled from the spec: `readdir(ino, handle, offset, reply_cap)` returns
up to `reply_cap` entries starting from `offset` of the logical ordering; a
cap of zero means "no cap" (§4.4). -/
def FS.readdir (fs : FS) (d : Nat) (off lim : Nat) : Except Nat (List DirEntry) :=
  match fs.find d with
  | some (p, FNode.dir _ cs) =>
    let rest := (dirEntries d p cs).drop off
    .ok (if lim = 0 then rest else rest.take lim)
  | _ => .error ENOENT

/-- Modelled from the spec: `mknod(parent, name, mode=REG, …)` creates a
`Local{empty buffer}` inode numbered by the monotonic counter and attaches
it; fails with EEXIST if a child already exists under that name (§4.3).
Local entries are appended to the directory's child map. -/
def FS.mknod (fs : FS) (parent : Nat) (name : String) : Except Nat (FS × Nat) :=
  match fs.find parent with
  | some (_, FNode.dir _ cs) =>
    match assocStr cs name with
    | some _ => .error EEXIST
    | none =>
      let child : FNode := .file fs.nextIno true []
      let root2 := updIno fs.root parent fun t =>
        match t with
        | .dir j cs2 => .dir j (cs2 ++ [(name, child)])
        | other => other
      .ok (⟨fs.nextIno + 1, root2.childrenOf⟩, fs.nextIno)
  | _ => .error ENOENT

/-- Modelled from the spec: `open(ino, flags)` validates the mode against the
provenance: `Local` → writer only, `Remote` → reader only; a mismatch is
EACCES (§4.5).  The access mode is the low two bits of the flags.  The
returned file handle is modelled by the inode number. -/
def FS.openFile (fs : FS) (i flags : Nat) : Except Nat Nat :=
  match fs.find i with
  | some (_, FNode.file _ isLoc _) =>
    if (if isLoc then flags % 4 = O_WRONLY else flags % 4 = 0) then .ok i
    else .error EACCES
  | _ => .error ENOENT

/-- Modelled from the spec: writes are append-only at the current buffer
length; `write(ino, fh, offset, bytes)` requires `offset == current_buffer_len`
(else EINVAL) and returns the number of bytes written (§4.6). -/
def FS.write (fs : FS) (i _fh off : Nat) (data : List Nat) : Except Nat (FS × Nat) :=
  match fs.find i with
  | some (_, FNode.file _ true content) =>
    if off = content.length then
      let root2 := updIno fs.root i fun t =>
        match t with
        | .file j l c => .file j l (c ++ data)
        | other => other
      .ok (⟨fs.nextIno, root2.childrenOf⟩, data.length)
    else .error EINVAL
  | _ => .error ENOENT

/-- Modelled from the spec: `release` flushes the buffer as a single `put`
and converts the inode from Local to Remote, retaining its id (§4.6). -/
def FS.release (fs : FS) (i : Nat) : Except Nat FS :=
  match fs.find i with
  | some (_, FNode.file _ true _) =>
    let root2 := updIno fs.root i fun t =>
      match t with
      | .file j _ c => .file j false c
      | other => other
    .ok ⟨fs.nextIno, root2.childrenOf⟩
  | _ => .error ENOENT

/-- Modelled from the spec: `read(ino, fh, offset, size)` issues a ranged get
and concatenates the parts; a short read at EOF returns the bytes obtained
(§4.5).  Only Remote files are readable (Local files are writer-only). -/
def FS.read (fs : FS) (i _fh off len : Nat) : Except Nat (List Nat) :=
  match fs.find i with
  | some (_, FNode.file _ false content) => .ok ((content.drop off).take len)
  | _ => .error ENOENT

/-! ## Erasure, inode lists, navigation and well-formedness -/

mutual

/-- Forget inode numbers and provenance: the observable shape of a node. -/
def eraseF : FNode → RNode
  | .dir _ cs => .dir (eraseL cs)
  | .file _ _ c => .file c
termination_by t => sizeOf t

def eraseL : List (String × FNode) → List (String × RNode)
  | [] => []
  | (n, c) :: rest => (n, eraseF c) :: eraseL rest
termination_by cs => sizeOf cs

end

mutual

/-- All inode numbers in a subtree, root first, children left to right. -/
def inosF : FNode → List Nat
  | .dir i cs => i :: inosL cs
  | .file i _ _ => [i]
termination_by t => sizeOf t

def inosL : List (String × FNode) → List Nat
  | [] => []
  | (_, c) :: rest => inosF c ++ inosL rest
termination_by cs => sizeOf cs

end

mutual

/-- Inode-number discipline: every node's number is strictly larger than its
parent's (ids are assigned from a monotonic counter, and a child is always
materialized after its parent) and strictly below the counter `b`. -/
def wfF (p b : Nat) : FNode → Bool
  | .file i _ _ => p < i && i < b
  | .dir i cs => p < i && i < b && wfL i b cs
termination_by t => sizeOf t

def wfL (p b : Nat) : List (String × FNode) → Bool
  | [] => true
  | (_, c) :: rest => wfF p b c && wfL p b rest
termination_by cs => sizeOf cs

end

/-- Duplicate-freedom of a list of names. -/
def nodupB : List String → Bool
  | [] => true
  | n :: rest => !(rest.contains n) && nodupB rest

def namesOf {α : Type} (cs : List (String × α)) : List String := cs.map Prod.fst

mutual

/-- Within every directory, names are unique (invariant 2 of the spec). -/
def namesOkF : FNode → Bool
  | .file _ _ _ => true
  | .dir _ cs => nodupB (namesOf cs) && namesOkL cs
termination_by t => sizeOf t

def namesOkL : List (String × FNode) → Bool
  | [] => true
  | (_, c) :: rest => namesOkF c && namesOkL rest
termination_by cs => sizeOf cs

end

mutual

def refWfN : RNode → Bool
  | .file _ => true
  | .dir cs => nodupB (namesOf cs) && refWfL cs
termination_by t => sizeOf t

def refWfL : List (String × RNode) → Bool
  | [] => true
  | (_, c) :: rest => refWfN c && refWfL rest
termination_by cs => sizeOf cs

end

mutual

/-- All files in a subtree have Remote provenance (no unflushed local
files); this holds between harness operations, since every write is
released immediately. -/
def remoteF : FNode → Bool
  | .file _ isLoc _ => !isLoc
  | .dir _ cs => remoteL cs
termination_by t => sizeOf t

def remoteL : List (String × FNode) → Bool
  | [] => true
  | (_, c) :: rest => remoteF c && remoteL rest
termination_by cs => sizeOf cs

end

/-- Navigation of the filesystem tree along a path of name components. -/
def getNode : FNode → List String → Option FNode
  | t, [] => some t
  | FNode.dir _ cs, n :: rest =>
    match assocStr cs n with
    | some c => getNode c rest
    | none => none
  | FNode.file _ _ _, _ :: _ => none

/-- The inode number of the parent of the node at a path (`q` is the parent
number of the starting node itself). -/
def parentOf (q : Nat) : FNode → List String → Option Nat
  | _, [] => some q
  | FNode.dir j cs, n :: rest =>
    match assocStr cs n with
    | some c => parentOf j c rest
    | none => none
  | FNode.file _ _ _, _ :: _ => none

/-- Path-indexed replacement: replace the node at `p` (every entry of the
matching name, which is unique under `namesOkF`). -/
def setNode : FNode → List String → FNode → FNode
  | _, [], r => r
  | FNode.dir j cs, n :: rest, r =>
    .dir j (cs.map fun e => if e.1 = n then (e.1, setNode e.2 rest r) else e)
  | t@(FNode.file _ _ _), _ :: _, _ => t

/-- Well-formed filesystem state. -/
def FS.wf (fs : FS) : Prop :=
  wfL FUSE_ROOT_INODE fs.nextIno fs.rootChildren = true ∧
  FUSE_ROOT_INODE < fs.nextIno ∧
  (inosF fs.root).Nodup ∧
  namesOkF fs.root = true

/-! ## Seeding the filesystem from a reference tree

Modelled from the spec: the harness seeds the mock object client from the
generated tree and mounts it; after mounting, lookups and listings
materialize the remote inodes, numbered from the monotonic counter.  We
seed depth-first: every node gets a number strictly greater than its
parent's. -/

mutual

def seedN (i : Nat) : RNode → FNode × Nat
  | .file c => (.file i false c, i + 1)
  | .dir cs =>
    let r := seedL (i + 1) cs
    (.dir i r.1, r.2)
termination_by r => sizeOf r

def seedL (i : Nat) : List (String × RNode) → List (String × FNode) × Nat
  | [] => ([], i)
  | (n, c) :: rest =>
    let fc := seedN i c
    let fl := seedL fc.2 rest
    ((n, fc.1) :: fl.1, fl.2)
termination_by cs => sizeOf cs

end

/-- Build the mounted filesystem corresponding to a seeded reference tree. -/
def mkFS (ref : Reference) : FS :=
  let r := seedL 2 ref.children
  ⟨r.2, r.1⟩

/-! ## The harness, embedded from `tests/reftests/harness.rs` -/

/-- An index into the reference model's list of directories
(`struct DirectoryIndex(usize)`). -/
structure DirectoryIndex where
  val : Nat

/-- `DirectoryIndex::get`: the full path of the directory at the given index
in the reference, wrapping around if the index is larger than the number of
directories.  The source asserts that the directory list is nonempty and
indexes at `self.0 % directories.len()`; the assertion is modelled by the
`none` result of `get?` on the (impossible) empty list. -/
def DirectoryIndex.get (d : DirectoryIndex) (reference : Reference) : Option (List String) :=
  let directories := reference.directories
  directories.get? (d.val % directories.length)

/-- Operations the mutating proptests can perform (`enum Op`).  `FileContent`
is represented by the byte string its `to_boxed_slice` produces. -/
inductive Op where
  | WriteFile (name : String) (directory_index : DirectoryIndex) (contents : List Nat)

/-- The test harness state. -/
structure Harness where
  readdir_limit : Nat
  reference : Reference
  fs : FS

/-- `MAX_READ_SIZE` of `Harness::compare_file`. -/
def MAX_READ_SIZE : Nat := 4096

/-- The chunked read loop of `Harness::compare_file`: read at most
`MAX_READ_SIZE` bytes at a time, assert each read returns exactly the
requested number of bytes and that they equal the reference content. -/
def compareChunks (fs : FS) (i fh : Nat) (content : List Nat) (off : Nat) : Bool :=
  if off < content.length then
    let num := min MAX_READ_SIZE (content.length - off)
    match fs.read i fh off num with
    | .error _ => false
    | .ok bytes =>
      decide (bytes.length = num) && decide (bytes = (content.drop off).take num) &&
        compareChunks fs i fh content (off + num)
  else true
termination_by content.length - off
decreasing_by
  have h1 : 0 < min MAX_READ_SIZE (content.length - off) :=
    lt_min (by norm_num [MAX_READ_SIZE]) (by omega)
  simp_wf
  omega

/-- `Harness::compare_file`: open the file read-only (the harness passes
flags `0x8000`) and compare its bytes chunk by chunk against the reference
object's content. -/
def compare_file (fs : FS) (i : Nat) (content : List Nat) : Bool :=
  match fs.openFile i 0x8000 with
  | .error _ => false
  | .ok fh => compareChunks fs i fh content 0

/-- The entry loop of `Harness::compare_contents_recursive`: for every
readdir entry, `lookup` it, find it in the reference children map, check the
kinds agree, check readdir and lookup agree on the inode number, compare file
contents or recurse into subdirectories, and tick the name off the key set;
at the end the key set must be empty. -/
def compareLoop (recur : Nat → RNode → Bool) (fs : FS) (fsDir : Nat)
    (children : List (String × RNode)) : List DirEntry → List String → Bool
  | [], keys => keys.isEmpty
  | e :: rest, keys =>
    match fs.lookup fsDir e.name with
    | .error _ => false
    | .ok (lkIno, lkKind) =>
      match assocStr children e.name with
      | none => false
      | some node =>
        decide (e.kind = node.fileType) && decide (lkIno = e.ino) &&
        (match node with
         | RNode.file c => decide (lkKind = FKind.file) && compare_file fs e.ino c
         | RNode.dir _ => decide (lkKind = FKind.dir) && recur e.ino node) &&
        keys.contains e.name && compareLoop recur fs fsDir children rest (keys.erase e.name)

/-- `Harness::compare_contents_recursive`, on fuel (one unit per directory
level).  The source drains the directory through repeated `readdir` calls of
at most `readdir_limit` entries, resuming at the last seen offset; since each
call returns a contiguous slice of the fixed logical ordering, the
concatenation of the batches is the full entry list, which is what we
traverse.  The first entry must be `.` with the directory's own inode, the
second `..` with the parent's. -/
def compareDirF : Nat → FS → Nat → Nat → RNode → Bool
  | 0, _, _, _, _ => false
  | fuel + 1, fs, fsParent, fsDir, ref =>
    match ref with
    | RNode.file _ => false
    | RNode.dir children =>
      match fs.opendir fsDir with
      | .error _ => false
      | .ok _ =>
        match fs.readdir fsDir 0 0 with
        | .error _ => false
        | .ok entries =>
          match entries with
          | e0 :: e1 :: rest =>
            decide (e0.name = ".") && decide (e0.ino = fsDir) &&
            decide (e1.name = "..") && decide (e1.ino = fsParent) &&
            compareLoop (fun cIno node => compareDirF fuel fs fsDir cIno node) fs fsDir
              children rest (namesOf children)
          | _ => false

mutual

/-- Nesting depth of a reference node (fuel bound for the recursive walk). -/
def depthR : RNode → Nat
  | .file _ => 0
  | .dir cs => depthL cs + 1
termination_by t => sizeOf t

def depthL : List (String × RNode) → Nat
  | [] => 0
  | (_, c) :: rest => max (depthR c) (depthL rest)
termination_by cs => sizeOf cs

end

/-- `Harness::compare_contents`: walk the whole tree starting at the root
(whose parent is itself). -/
def Harness.compare_contents (h : Harness) : Bool :=
  compareDirF (depthR h.reference.root + 1) h.fs FUSE_ROOT_INODE FUSE_ROOT_INODE
    h.reference.root

/-- The directory walk at the start of a `WriteFile` op in `Harness::run`:
find the inode for the directory by looking up each path component in turn.
The `expect` on a failed lookup is modelled by `none`. -/
def walkDir (fs : FS) : Nat → List String → Option Nat
  | ino, [] => some ino
  | ino, c :: rest =>
    match fs.lookup ino c with
    | .ok r => walkDir fs r.1 rest
    | .error _ => none

/-- One operation of `Harness::run` (without the trailing content
comparison): pick the directory, walk to its inode, and either check that
`mknod` fails with EEXIST (when the reference already has a node at the full
path) or create, write, and release the file on the filesystem and mirror it
into the reference.  Any failed `unwrap`/`assert!` of the source is `none`. -/
def Harness.runOp (h : Harness) : Op → Option Harness
  | .WriteFile name directory_index contents =>
    match directory_index.get h.reference with
    | none => none
    | some dir =>
      match walkDir h.fs FUSE_ROOT_INODE dir with
      | none => none
      | some inode =>
        let full_path := dir ++ [name]
        match h.reference.lookup full_path with
        | some _ =>
          match h.fs.mknod inode name with
          | .error e => if e = EEXIST then some h else none
          | .ok _ => none
        | none =>
          match h.fs.mknod inode name with
          | .error _ => none
          | .ok (fs1, ino1) =>
            match fs1.openFile ino1 O_WRONLY with
            | .error _ => none
            | .ok fh =>
              match fs1.write ino1 fh 0 contents with
              | .error _ => none
              | .ok (fs2, written) =>
                if written = contents.length then
                  match fs2.release ino1 with
                  | .error _ => none
                  | .ok fs3 =>
                    some ⟨h.readdir_limit, h.reference.add_file full_path contents, fs3⟩
                else none

/-- One iteration of the loop of `Harness::run`: execute the operation, then
check equivalence between the reference model and the file system. -/
def Harness.runStep (h : Harness) (op : Op) : Option Harness :=
  match h.runOp op with
  | none => none
  | some h2 => if h2.compare_contents then some h2 else none

/-- `Harness::run`: run a sequence of mutation operations, checking
equivalence after each one; `none` means some assertion of the harness
failed. -/
def Harness.run (h : Harness) : List Op → Option Harness
  | [] => some h
  | op :: rest =>
    match h.runStep op with
    | none => none
    | some h2 => h2.run rest

/-! ## Induction principles for the nested tree types -/

mutual

def fnodeIndF {m1 : FNode → Prop} {m2 : List (String × FNode) → Prop}
    (hfile : ∀ i l c, m1 (.file i l c))
    (hdir : ∀ i cs, m2 cs → m1 (.dir i cs))
    (hnil : m2 [])
    (hcons : ∀ n c rest, m1 c → m2 rest → m2 ((n, c) :: rest))
    (t : FNode) : m1 t :=
  match t with
  | .file i l c => hfile i l c
  | .dir i cs => hdir i cs (fnodeIndL hfile hdir hnil hcons cs)
termination_by sizeOf t

def fnodeIndL {m1 : FNode → Prop} {m2 : List (String × FNode) → Prop}
    (hfile : ∀ i l c, m1 (.file i l c))
    (hdir : ∀ i cs, m2 cs → m1 (.dir i cs))
    (hnil : m2 [])
    (hcons : ∀ n c rest, m1 c → m2 rest → m2 ((n, c) :: rest))
    (cs : List (String × FNode)) : m2 cs :=
  match cs with
  | [] => hnil
  | (n, c) :: rest =>
    hcons n c rest (fnodeIndF hfile hdir hnil hcons c) (fnodeIndL hfile hdir hnil hcons rest)
termination_by sizeOf cs

end

mutual

def rnodeIndF {m1 : RNode → Prop} {m2 : List (String × RNode) → Prop}
    (hfile : ∀ c, m1 (.file c))
    (hdir : ∀ cs, m2 cs → m1 (.dir cs))
    (hnil : m2 [])
    (hcons : ∀ n c rest, m1 c → m2 rest → m2 ((n, c) :: rest))
    (t : RNode) : m1 t :=
  match t with
  | .file c => hfile c
  | .dir cs => hdir cs (rnodeIndL hfile hdir hnil hcons cs)
termination_by sizeOf t

def rnodeIndL {m1 : RNode → Prop} {m2 : List (String × RNode) → Prop}
    (hfile : ∀ c, m1 (.file c))
    (hdir : ∀ cs, m2 cs → m1 (.dir cs))
    (hnil : m2 [])
    (hcons : ∀ n c rest, m1 c → m2 rest → m2 ((n, c) :: rest))
    (cs : List (String × RNode)) : m2 cs :=
  match cs with
  | [] => hnil
  | (n, c) :: rest =>
    hcons n c rest (rnodeIndF hfile hdir hnil hcons c) (rnodeIndL hfile hdir hnil hcons rest)
termination_by sizeOf cs

end

/-- The simulation invariant between the filesystem and the reference model:
the erased filesystem tree is the reference tree, inode numbers respect the
monotonic-counter discipline and are globally unique, names are unique within
every directory, and no unflushed local file remains. -/
def Inv (fs : FS) (ref : Reference) : Prop :=
  eraseL fs.rootChildren = ref.children ∧
  wfL FUSE_ROOT_INODE fs.nextIno fs.rootChildren = true ∧
  FUSE_ROOT_INODE < fs.nextIno ∧
  (inosF fs.root).Nodup ∧
  namesOkF fs.root = true ∧
  remoteF fs.root = true

/-- Path-indexed replacement in the reference tree, mirroring [setNode]. -/
def rset : RNode → List String → RNode → RNode
  | _, [], r => r
  | RNode.dir cs, n :: rest, r =>
    .dir (cs.map fun e => if e.1 = n then (e.1, rset e.2 rest r) else e)
  | t@(RNode.file _), _ :: _, _ => t

/-- The inode numbers returned by successive `lookup` calls along a path
(the walk of `Harness::compare_single_path`). -/
def walkInos (fs : FS) : Nat → List String → Option (List Nat)
  | _, [] => some []
  | ino, c :: rest =>
    match fs.lookup ino c with
    | .ok r => (walkInos fs r.1 rest).map fun l => r.1 :: l
    | .error _ => none

/-! ## The object client: `ETag` and the error taxonomy

Embedded from `src/mountpoint-s3-client/src/object_client.rs`.  Byte strings
are `List Nat` (each element a byte value), and the MD5 digest used by
`ETag::from_object_bytes` is implemented from RFC 1321 over `Nat` arithmetic
modulo `2 ^ 32`.
-/

/-- The per-round shift amounts of MD5 (RFC 1321). -/
def md5s : List Nat :=
  [7, 12, 17, 22, 7, 12, 17, 22, 7, 12, 17, 22, 7, 12, 17, 22,
   5, 9, 14, 20, 5, 9, 14, 20, 5, 9, 14, 20, 5, 9, 14, 20,
   4, 11, 16, 23, 4, 11, 16, 23, 4, 11, 16, 23, 4, 11, 16, 23,
   6, 10, 15, 21, 6, 10, 15, 21, 6, 10, 15, 21, 6, 10, 15, 21]

/-- The sine-derived additive constants of MD5 (RFC 1321). -/
def md5K : List Nat :=
  [0xd76aa478, 0xe8c7b756, 0x242070db, 0xc1bdceee,
   0xf57c0faf, 0x4787c62a, 0xa8304613, 0xfd469501,
   0x698098d8, 0x8b44f7af, 0xffff5bb1, 0x895cd7be,
   0x6b901122, 0xfd987193, 0xa679438e, 0x49b40821,
   0xf61e2562, 0xc040b340, 0x265e5a51, 0xe9b6c7aa,
   0xd62f105d, 0x02441453, 0xd8a1e681, 0xe7d3fbc8,
   0x21e1cde6, 0xc33707d6, 0xf4d50d87, 0x455a14ed,
   0xa9e3e905, 0xfcefa3f8, 0x676f02d9, 0x8d2a4c8a,
   0xfffa3942, 0x8771f681, 0x6d9d6122, 0xfde5380c,
   0xa4beea44, 0x4bdecfa9, 0xf6bb4b60, 0xbebfbc70,
   0x289b7ec6, 0xeaa127fa, 0xd4ef3085, 0x04881d05,
   0xd9d4d039, 0xe6db99e5, 0x1fa27cf8, 0xc4ac5665,
   0xf4292244, 0x432aff97, 0xab9423a7, 0xfc93a039,
   0x655b59c3, 0x8f0ccc92, 0xffeff47d, 0x85845dd1,
   0x6fa87e4f, 0xfe2ce6e0, 0xa3014314, 0x4e0811a1,
   0xf7537e82, 0xbd3af235, 0x2ad7d2bb, 0xeb86d391]

/-- Left-rotation of a 32-bit word. -/
def rotl32 (x s : Nat) : Nat :=
  (x * 2 ^ s + x / 2 ^ (32 - s)) % 2 ^ 32

/-- Bitwise combination of the low `k` bits of two words (structural, so
that digests evaluate by kernel reduction). -/
def bit32 (f : Bool → Bool → Bool) : Nat → Nat → Nat → Nat
  | 0, _, _ => 0
  | k + 1, x, y =>
    (if f (x % 2 = 1) (y % 2 = 1) then 1 else 0) + 2 * bit32 f k (x / 2) (y / 2)

/-- Bitwise AND of two 32-bit words. -/
def land32 (x y : Nat) : Nat := bit32 Bool.and 32 x y

/-- Bitwise OR of two 32-bit words. -/
def lor32 (x y : Nat) : Nat := bit32 Bool.or 32 x y

/-- Bitwise XOR of two 32-bit words. -/
def lxor32 (x y : Nat) : Nat := bit32 Bool.xor 32 x y

/-- Bitwise complement of a 32-bit word. -/
def not32 (x : Nat) : Nat := 0xffffffff - x

/-- The `i`-th little-endian 32-bit word of a 64-byte block. -/
def md5Word (block : List Nat) (i : Nat) : Nat :=
  block.getD (4 * i) 0 + 256 * block.getD (4 * i + 1) 0 +
    65536 * block.getD (4 * i + 2) 0 + 16777216 * block.getD (4 * i + 3) 0

/-- One of the 64 MD5 rounds applied to the running state `(a, b, c, d)`. -/
def md5Round (block : List Nat) (st : Nat × Nat × Nat × Nat) (i : Nat) :
    Nat × Nat × Nat × Nat :=
  let a := st.1
  let b := st.2.1
  let c := st.2.2.1
  let d := st.2.2.2
  let f :=
    if i < 16 then lor32 (land32 b c) (land32 (not32 b) d)
    else if i < 32 then lor32 (land32 d b) (land32 (not32 d) c)
    else if i < 48 then lxor32 (lxor32 b c) d
    else lxor32 c (lor32 b (not32 d))
  let g :=
    if i < 16 then i
    else if i < 32 then (5 * i + 1) % 16
    else if i < 48 then (3 * i + 5) % 16
    else (7 * i) % 16
  let f2 := (f + a + md5K.getD i 0 + md5Word block g) % 2 ^ 32
  (d, (b + rotl32 f2 (md5s.getD i 0)) % 2 ^ 32, b, c)

/-- Compression of one 64-byte block into the MD5 state. -/
def md5Block (block : List Nat) (st : Nat × Nat × Nat × Nat) :
    Nat × Nat × Nat × Nat :=
  let r := (List.range 64).foldl (md5Round block) st
  ((st.1 + r.1) % 2 ^ 32, (st.2.1 + r.2.1) % 2 ^ 32,
   (st.2.2.1 + r.2.2.1) % 2 ^ 32, (st.2.2.2 + r.2.2.2) % 2 ^ 32)

/-- Fueled block loop over a padded message (64 bytes per iteration; the fuel
only bounds the number of blocks). -/
def md5Loop : Nat → List Nat → Nat × Nat × Nat × Nat → Nat × Nat × Nat × Nat
  | 0, _, st => st
  | _ + 1, [], st => st
  | n + 1, msg, st => md5Loop n (msg.drop 64) (md5Block (msg.take 64) st)

/-- `k` little-endian bytes of a machine word. -/
def leBytes : Nat → Nat → List Nat
  | 0, _ => []
  | k + 1, x => x % 256 :: leBytes k (x / 256)

/-- MD5 padding: a `0x80` byte, zeros to 56 mod 64, and the 8-byte
little-endian bit length. -/
def md5Pad (msg : List Nat) : List Nat :=
  msg ++ [0x80] ++ List.replicate ((119 - msg.length % 64) % 64) 0 ++
    leBytes 8 (msg.length * 8)

/-- The 16-byte MD5 digest of a byte string (RFC 1321). -/
def md5 (msg : List Nat) : List Nat :=
  let padded := md5Pad msg
  let r := md5Loop padded.length padded
    (0x67452301, 0xefcdab89, 0x98badcfe, 0x10325476)
  leBytes 4 r.1 ++ leBytes 4 r.2.1 ++ leBytes 4 r.2.2.1 ++ leBytes 4 r.2.2.2

/-- The sixteen lowercase hexadecimal digits (`0`-`9` then `a`-`f`). -/
def hexDigits : List Char :=
  (List.range 16).map fun n => Char.ofNat (if n < 10 then 48 + n else 87 + n)

/-- A nibble as a lowercase hexadecimal character. -/
def hexChar (n : Nat) : Char := hexDigits.getD n '0'

/-- Lowercase hexadecimal rendering of a byte string, as produced by
`format!` with the `x` format on an MD5 digest (high nibble first). -/
def hexOfBytes (bytes : List Nat) : String :=
  String.mk (bytes.foldr (fun b acc => hexChar (b / 16 % 16) :: hexChar (b % 16) :: acc) [])

/-- `struct ETag { etag: String }`. -/
structure ETag where
  etag : String
deriving DecidableEq, Repr

/-- `ETag::as_str`. -/
def ETag.as_str (e : ETag) : String := e.etag

/-- `ETag::for_tests`. -/
def ETag.for_tests : ETag := ⟨"test_etag"⟩

/-- `ETag::from_object_bytes`: the lowercase hexadecimal MD5 digest of the
object's bytes. -/
def ETag.from_object_bytes (data : List Nat) : ETag := ⟨hexOfBytes (md5 data)⟩

/-- `std::string::ParseError`, the error type of `ETag`'s `FromStr` instance:
an uninhabited type (the conversion is infallible). -/
inductive ParseError : Type

/-- `<ETag as FromStr>::from_str`. -/
def ETag.from_str (value : String) : Except ParseError ETag := .ok ⟨value⟩

/-- `enum ObjectClientError<S, C> { ServiceError(S), ClientError(C) }`. -/
inductive ObjectClientError (S C : Type) where
  | ServiceError (s : S)
  | ClientError (c : C)
deriving DecidableEq, Repr

/-- `enum GetObjectError`. -/
inductive GetObjectError where
  | NoSuchBucket
  | NoSuchKey
  | PreconditionFailed
deriving DecidableEq, Repr

/-- `enum ListObjectsError`. -/
inductive ListObjectsError where
  | NoSuchBucket
deriving DecidableEq, Repr

/-- `enum HeadObjectError` (it cannot distinguish a missing bucket from a
missing key). -/
inductive HeadObjectError where
  | NotFound
deriving DecidableEq, Repr

/-- `enum DeleteObjectError`. -/
inductive DeleteObjectError where
  | NoSuchBucket
deriving DecidableEq, Repr

/-- `enum PutObjectError`. -/
inductive PutObjectError where
  | NoSuchBucket
deriving DecidableEq, Repr

/-- `struct DeleteObjectResult {}`. -/
structure DeleteObjectResult where
deriving DecidableEq, Repr

/-- Modelled from the spec: an in-memory object store against which
`delete_object`'s contract is stated — buckets are named maps of keys to
byte strings. -/
structure MockStore where
  buckets : List (String × List (String × List Nat))

/-- Modelled from the spec: `delete_object(bucket, key)` — success even if
the key is absent, and `NoSuchBucket` when the bucket does not exist (the
only service error of the operation).  The client-error parameter is left
uninhabited: the model itself never fails in transport. -/
def MockStore.delete_object (st : MockStore) (bucket key : String) :
    Except (ObjectClientError DeleteObjectError Empty) (MockStore × DeleteObjectResult) :=
  match assocStr st.buckets bucket with
  | none => .error (.ServiceError .NoSuchBucket)
  | some objs =>
    .ok (⟨st.buckets.map fun e =>
      if e.1 = bucket then (e.1, objs.filter fun o => !(o.1 == key)) else e⟩, {})


/-! ## Basic lemmas: association lists and names -/

theorem namesOf_nil {α : Type} : namesOf ([] : List (String × α)) = [] := rfl

theorem namesOf_cons {α : Type} (e : String × α) (cs : List (String × α)) :
    namesOf (e :: cs) = e.1 :: namesOf cs := rfl

theorem namesOf_append {α : Type} (xs ys : List (String × α)) :
    namesOf (xs ++ ys) = namesOf xs ++ namesOf ys := by
  simp [namesOf]

theorem assocStr_none_iff {α : Type} (cs : List (String × α)) (n : String) :
    assocStr cs n = none ↔ n ∉ namesOf cs := by
  induction cs with
  | nil => simp [assocStr, namesOf]
  | cons e rest ih =>
    by_cases h : e.1 = n
    · simp [assocStr, namesOf, h]
    · simpa [assocStr, namesOf, h, Ne.symm h] using ih

theorem assocStr_cons_self {α : Type} (n : String) (a : α) (cs : List (String × α)) :
    assocStr ((n, a) :: cs) n = some a := by
  simp [assocStr]

theorem assocStr_cons_ne {α : Type} (m n : String) (a : α) (cs : List (String × α))
    (h : m ≠ n) : assocStr ((m, a) :: cs) n = assocStr cs n := by
  simp [assocStr, h]

theorem assocStr_append_none {α : Type} (xs ys : List (String × α)) (n : String)
    (h : assocStr xs n = none) : assocStr (xs ++ ys) n = assocStr ys n := by
  induction xs with
  | nil => simp
  | cons e rest ih =>
    by_cases he : e.1 = n
    · rw [show e = (e.1, e.2) from rfl, he] at h
      simp [assocStr_cons_self] at h
    · rw [show e = (e.1, e.2) from rfl] at h ⊢
      rw [assocStr_cons_ne _ _ _ _ he] at h
      simpa [assocStr_cons_ne _ _ _ _ he] using ih h

theorem assocStr_append_some {α : Type} (xs ys : List (String × α)) (n : String) (a : α)
    (h : assocStr xs n = some a) : assocStr (xs ++ ys) n = some a := by
  induction xs with
  | nil => simp [assocStr] at h
  | cons e rest ih =>
    by_cases he : e.1 = n
    · rw [show e = (e.1, e.2) from rfl, he] at h ⊢
      rw [assocStr_cons_self] at h
      simp [assocStr_cons_self, h]
    · rw [show e = (e.1, e.2) from rfl] at h ⊢
      rw [assocStr_cons_ne _ _ _ _ he] at h
      simpa [assocStr_cons_ne _ _ _ _ he] using ih h

theorem assocStr_mem {α : Type} (cs : List (String × α)) (n : String) (a : α)
    (h : assocStr cs n = some a) : (n, a) ∈ cs := by
  induction cs with
  | nil => simp [assocStr] at h
  | cons e rest ih =>
    obtain ⟨m0, a0⟩ := e
    by_cases he : m0 = n
    · subst he
      rw [assocStr_cons_self] at h
      cases h
      simp
    · rw [assocStr_cons_ne _ _ _ _ he] at h
      simp [ih h]

theorem assocStr_decomp {α : Type} (cs : List (String × α)) (n : String) (a : α)
    (h : assocStr cs n = some a) :
    ∃ cs1 cs2, cs = cs1 ++ (n, a) :: cs2 ∧ n ∉ namesOf cs1 := by
  induction cs with
  | nil => simp [assocStr] at h
  | cons e rest ih =>
    obtain ⟨m0, a0⟩ := e
    by_cases he : m0 = n
    · subst he
      rw [assocStr_cons_self] at h
      cases h
      exact ⟨[], rest, by simp, by simp [namesOf]⟩
    · rw [assocStr_cons_ne _ _ _ _ he] at h
      obtain ⟨cs1, cs2, heq, hnm⟩ := ih h
      exact ⟨(m0, a0) :: cs1, cs2, by simp [heq], by
        simp [namesOf] at hnm ⊢
        exact ⟨fun hh => he hh.symm, hnm⟩⟩

/-- Maps that rewrite only the entry of one name and keep all names. -/
theorem assocStr_condMap {α : Type} (cs : List (String × α)) (n m : String)
    (F : String × α → α) :
    assocStr (cs.map fun e => if e.1 = n then (e.1, F e) else e) m =
      if m = n then Option.map (fun a => F (n, a)) (assocStr cs m) else assocStr cs m := by
  induction cs with
  | nil => by_cases hm : m = n <;> simp [assocStr, hm]
  | cons e rest ih =>
    obtain ⟨m0, a0⟩ := e
    dsimp only [List.map]
    by_cases he1 : m0 = n
    · subst he1
      rw [if_pos rfl]
      by_cases hm : m = m0
      · subst hm
        rw [assocStr_cons_self, assocStr_cons_self, if_pos rfl]
        rfl
      · have hne : m0 ≠ m := fun hh => hm hh.symm
        rw [assocStr_cons_ne _ _ _ _ hne, assocStr_cons_ne _ _ _ _ hne, ih]
    · rw [if_neg he1]
      by_cases hem : m0 = m
      · subst hem
        rw [assocStr_cons_self, assocStr_cons_self,
          if_neg (show ¬(m0 = n) from he1)]
      · rw [assocStr_cons_ne _ _ _ _ hem, assocStr_cons_ne _ _ _ _ hem, ih]

theorem condMap_names {α : Type} (cs : List (String × α)) (n : String)
    (F : String × α → α) :
    namesOf (cs.map fun e => if e.1 = n then (e.1, F e) else e) = namesOf cs := by
  induction cs with
  | nil => rfl
  | cons e rest ih =>
    obtain ⟨m0, a0⟩ := e
    dsimp only [List.map]
    by_cases he : m0 = n
    · subst he
      rw [if_pos rfl, namesOf_cons, namesOf_cons, ih]
    · rw [if_neg he, namesOf_cons, namesOf_cons, ih]

theorem condMap_id {α : Type} (cs : List (String × α)) (n : String) (F : String × α → α)
    (h : n ∉ namesOf cs) : (cs.map fun e => if e.1 = n then (e.1, F e) else e) = cs := by
  induction cs with
  | nil => rfl
  | cons e rest ih =>
    obtain ⟨m0, a0⟩ := e
    rw [namesOf_cons] at h
    simp only [List.mem_cons, not_or] at h
    dsimp only [List.map]
    rw [if_neg (show ¬(m0 = n) from fun hh => h.1 hh.symm), ih h.2]

theorem nodupB_iff (l : List String) : nodupB l = true ↔ l.Nodup := by
  induction l with
  | nil => simp [nodupB]
  | cons n rest ih =>
    simp [nodupB, ih, List.elem_iff]


/-! ## Erasure, inode-list and well-formedness lemmas -/

theorem eraseL_append (xs ys : List (String × FNode)) :
    eraseL (xs ++ ys) = eraseL xs ++ eraseL ys := by
  induction xs with
  | nil => simp [eraseL]
  | cons e rest ih =>
    obtain ⟨n, c⟩ := e
    simp [eraseL, ih]

theorem eraseL_names (cs : List (String × FNode)) :
    namesOf (eraseL cs) = namesOf cs := by
  induction cs with
  | nil => simp [eraseL, namesOf]
  | cons e rest ih =>
    obtain ⟨n, c⟩ := e
    simp [eraseL, namesOf] at ih ⊢
    exact ih

theorem assocStr_eraseL (cs : List (String × FNode)) (n : String) :
    assocStr (eraseL cs) n = Option.map eraseF (assocStr cs n) := by
  induction cs with
  | nil => simp [eraseL, assocStr]
  | cons e rest ih =>
    obtain ⟨m, c⟩ := e
    by_cases h : m = n
    · subst h
      simp [eraseL, assocStr_cons_self]
    · simp [eraseL, assocStr_cons_ne _ _ _ _ h, ih]

theorem inosL_append (xs ys : List (String × FNode)) :
    inosL (xs ++ ys) = inosL xs ++ inosL ys := by
  induction xs with
  | nil => simp [inosL]
  | cons e rest ih =>
    obtain ⟨n, c⟩ := e
    simp [inosL, ih]

theorem wfL_append (p b : Nat) (xs ys : List (String × FNode)) :
    wfL p b (xs ++ ys) = (wfL p b xs && wfL p b ys) := by
  induction xs with
  | nil => simp [wfL]
  | cons e rest ih =>
    obtain ⟨n, c⟩ := e
    simp [wfL, ih, Bool.and_assoc]

theorem namesOkL_append (xs ys : List (String × FNode)) :
    namesOkL (xs ++ ys) = (namesOkL xs && namesOkL ys) := by
  induction xs with
  | nil => simp [namesOkL]
  | cons e rest ih =>
    obtain ⟨n, c⟩ := e
    simp [namesOkL, ih, Bool.and_assoc]

theorem remoteL_append (xs ys : List (String × FNode)) :
    remoteL (xs ++ ys) = (remoteL xs && remoteL ys) := by
  induction xs with
  | nil => simp [remoteL]
  | cons e rest ih =>
    obtain ⟨n, c⟩ := e
    simp [remoteL, ih, Bool.and_assoc]

theorem mem_inosL (cs : List (String × FNode)) (n : String) (c : FNode)
    (hm : (n, c) ∈ cs) : ∀ x ∈ inosF c, x ∈ inosL cs := by
  induction cs with
  | nil => simp at hm
  | cons e rest ih =>
    obtain ⟨m, c2⟩ := e
    intro x hx
    rcases List.mem_cons.mp hm with h | h
    · cases h
      simp [inosL, hx]
    · simp [inosL, ih h x hx]

theorem wfL_mem (p b : Nat) (cs : List (String × FNode)) (n : String) (c : FNode)
    (hw : wfL p b cs = true) (hm : (n, c) ∈ cs) : wfF p b c = true := by
  induction cs with
  | nil => simp at hm
  | cons e rest ih =>
    obtain ⟨m, c2⟩ := e
    simp [wfL] at hw
    rcases List.mem_cons.mp hm with h | h
    · cases h
      exact hw.1
    · exact ih hw.2 h

theorem wfL_mem_bounds (p b : Nat) (cs : List (String × FNode))
    (hw : wfL p b cs = true) : ∀ x ∈ inosL cs, p < x ∧ x < b := by
  have main : (∀ t, ∀ q b2, wfF q b2 t = true → ∀ x ∈ inosF t, q < x ∧ x < b2) ∧
      (∀ l, ∀ q b2, wfL q b2 l = true → ∀ x ∈ inosL l, q < x ∧ x < b2) := by
    have hf : ∀ i l c, ∀ q b2, wfF q b2 (FNode.file i l c) = true →
        ∀ x ∈ inosF (FNode.file i l c), q < x ∧ x < b2 := by
      intro i l c q b2 hw x hx
      simp [inosF] at hx
      subst hx
      simp [wfF] at hw
      exact hw
    have hd : ∀ i cs2, (∀ q b2, wfL q b2 cs2 = true → ∀ x ∈ inosL cs2, q < x ∧ x < b2) →
        ∀ q b2, wfF q b2 (FNode.dir i cs2) = true →
        ∀ x ∈ inosF (FNode.dir i cs2), q < x ∧ x < b2 := by
      intro i cs2 ih q b2 hw x hx
      simp [wfF] at hw
      rcases hw with ⟨⟨h1, h2⟩, h3⟩
      simp [inosF] at hx
      rcases hx with hx | hx
      · subst hx
        exact ⟨h1, h2⟩
      · have := ih i b2 h3 x hx
        exact ⟨Nat.lt_trans h1 this.1, this.2⟩
    have hn : ∀ q b2, wfL q b2 ([] : List (String × FNode)) = true →
        ∀ x ∈ inosL ([] : List (String × FNode)), q < x ∧ x < b2 := by
      intro q b2 _ x hx
      simp [inosL] at hx
    have hc : ∀ n2 c rest, (∀ q b2, wfF q b2 c = true → ∀ x ∈ inosF c, q < x ∧ x < b2) →
        (∀ q b2, wfL q b2 rest = true → ∀ x ∈ inosL rest, q < x ∧ x < b2) →
        ∀ q b2, wfL q b2 ((n2, c) :: rest) = true →
        ∀ x ∈ inosL ((n2, c) :: rest), q < x ∧ x < b2 := by
      intro n2 c rest ihc ihr q b2 hw x hx
      simp [wfL] at hw
      simp [inosL] at hx
      rcases hx with hx | hx
      · exact ihc q b2 hw.1 x hx
      · exact ihr q b2 hw.2 x hx
    exact ⟨@fnodeIndF _ _ hf hd hn hc, @fnodeIndL _ _ hf hd hn hc⟩
  exact main.2 cs p b hw

theorem wf_mono :
    (∀ t, ∀ p b b2, wfF p b t = true → b ≤ b2 → wfF p b2 t = true) ∧
    (∀ cs, ∀ p b b2, wfL p b cs = true → b ≤ b2 → wfL p b2 cs = true) := by
  have hf : ∀ i l c, ∀ p b b2, wfF p b (FNode.file i l c) = true → b ≤ b2 →
      wfF p b2 (FNode.file i l c) = true := by
    intro i l c p b b2 hw hle
    simp [wfF] at hw ⊢
    rcases hw with ⟨h1, h2⟩
    exact ⟨h1, Nat.lt_of_lt_of_le h2 hle⟩
  have hd : ∀ i cs, (∀ p b b2, wfL p b cs = true → b ≤ b2 → wfL p b2 cs = true) →
      ∀ p b b2, wfF p b (FNode.dir i cs) = true → b ≤ b2 →
      wfF p b2 (FNode.dir i cs) = true := by
    intro i cs ih p b b2 hw hle
    simp [wfF] at hw ⊢
    rcases hw with ⟨⟨h1, h2⟩, h3⟩
    exact ⟨⟨h1, Nat.lt_of_lt_of_le h2 hle⟩, ih i b b2 h3 hle⟩
  have hn : ∀ p b b2, wfL p b ([] : List (String × FNode)) = true → b ≤ b2 →
      wfL p b2 ([] : List (String × FNode)) = true := by
    intro p b b2 _ _
    simp [wfL]
  have hc : ∀ n c rest, (∀ p b b2, wfF p b c = true → b ≤ b2 → wfF p b2 c = true) →
      (∀ p b b2, wfL p b rest = true → b ≤ b2 → wfL p b2 rest = true) →
      ∀ p b b2, wfL p b ((n, c) :: rest) = true → b ≤ b2 →
      wfL p b2 ((n, c) :: rest) = true := by
    intro n c rest ihc ihr p b b2 hw hle
    simp [wfL] at hw ⊢
    exact ⟨ihc p b b2 hw.1 hle, ihr p b b2 hw.2 hle⟩
  exact ⟨@fnodeIndF _ _ hf hd hn hc, @fnodeIndL _ _ hf hd hn hc⟩

theorem findWP_not_mem :
    (∀ t, ∀ p i, i ∉ inosF t → findWP p t i = none) ∧
    (∀ cs, ∀ p i, i ∉ inosL cs → findWPL p cs i = none) := by
  have hf : ∀ j l c, ∀ p i, i ∉ inosF (FNode.file j l c) →
      findWP p (FNode.file j l c) i = none := by
    intro j l c p i hni
    simp [inosF] at hni
    simp [findWP, FNode.ino, Ne.symm hni]
  have hd : ∀ j cs, (∀ p i, i ∉ inosL cs → findWPL p cs i = none) →
      ∀ p i, i ∉ inosF (FNode.dir j cs) → findWP p (FNode.dir j cs) i = none := by
    intro j cs ih p i hni
    simp [inosF] at hni
    simp [findWP, FNode.ino, Ne.symm hni.1, ih j i hni.2]
  have hn : ∀ p i, i ∉ inosL ([] : List (String × FNode)) →
      findWPL p ([] : List (String × FNode)) i = none := by
    intro p i _
    simp [findWPL]
  have hc : ∀ n c rest, (∀ p i, i ∉ inosF c → findWP p c i = none) →
      (∀ p i, i ∉ inosL rest → findWPL p rest i = none) →
      ∀ p i, i ∉ inosL ((n, c) :: rest) → findWPL p ((n, c) :: rest) i = none := by
    intro n c rest ihc ihr p i hni
    simp [inosL] at hni
    simp [findWPL, ihc p i hni.1, ihr p i hni.2]
  exact ⟨@fnodeIndF _ _ hf hd hn hc, @fnodeIndL _ _ hf hd hn hc⟩

theorem updIno_not_mem :
    (∀ t, ∀ i f, i ∉ inosF t → updIno t i f = t) ∧
    (∀ cs, ∀ i f, i ∉ inosL cs → updInoL cs i f = cs) := by
  have hf : ∀ j l c, ∀ i f, i ∉ inosF (FNode.file j l c) →
      updIno (FNode.file j l c) i f = FNode.file j l c := by
    intro j l c i f hni
    simp [inosF] at hni
    simp [updIno, FNode.ino, Ne.symm hni]
  have hd : ∀ j cs, (∀ i f, i ∉ inosL cs → updInoL cs i f = cs) →
      ∀ i f, i ∉ inosF (FNode.dir j cs) → updIno (FNode.dir j cs) i f = FNode.dir j cs := by
    intro j cs ih i f hni
    simp [inosF] at hni
    simp [updIno, FNode.ino, Ne.symm hni.1, ih i f hni.2]
  have hn : ∀ i f, i ∉ inosL ([] : List (String × FNode)) →
      updInoL ([] : List (String × FNode)) i f = [] := by
    intro i f _
    simp [updInoL]
  have hc : ∀ n c rest, (∀ i f, i ∉ inosF c → updIno c i f = c) →
      (∀ i f, i ∉ inosL rest → updInoL rest i f = rest) →
      ∀ i f, i ∉ inosL ((n, c) :: rest) → updInoL ((n, c) :: rest) i f = (n, c) :: rest := by
    intro n c rest ihc ihr i f hni
    simp [inosL] at hni
    simp [updInoL, ihc i f hni.1, ihr i f hni.2]
  exact ⟨@fnodeIndF _ _ hf hd hn hc, @fnodeIndL _ _ hf hd hn hc⟩

theorem namesOk_erase :
    (∀ t, refWfN (eraseF t) = namesOkF t) ∧
    (∀ cs, refWfL (eraseL cs) = namesOkL cs) := by
  have hf : ∀ j l c, refWfN (eraseF (FNode.file j l c)) = namesOkF (FNode.file j l c) := by
    intro j l c
    simp [eraseF, refWfN, namesOkF]
  have hd : ∀ j cs, (refWfL (eraseL cs) = namesOkL cs) →
      refWfN (eraseF (FNode.dir j cs)) = namesOkF (FNode.dir j cs) := by
    intro j cs ih
    simp [eraseF, refWfN, namesOkF, ih, eraseL_names]
  have hn : refWfL (eraseL ([] : List (String × FNode))) =
      namesOkL ([] : List (String × FNode)) := by
    simp [eraseL, refWfL, namesOkL]
  have hc : ∀ n c rest, (refWfN (eraseF c) = namesOkF c) →
      (refWfL (eraseL rest) = namesOkL rest) →
      refWfL (eraseL ((n, c) :: rest)) = namesOkL ((n, c) :: rest) := by
    intro n c rest ihc ihr
    simp [eraseL, refWfL, namesOkL, ihc, ihr]
  exact ⟨@fnodeIndF _ _ hf hd hn hc, @fnodeIndL _ _ hf hd hn hc⟩

theorem eraseF_fileType (t : FNode) : (eraseF t).fileType = t.kind := by
  cases t <;> simp [eraseF, RNode.fileType, FNode.kind]

theorem eraseF_dir_shape (t : FNode) (rcs : List (String × RNode)) (h : eraseF t = .dir rcs) :
    ∃ j cs, t = .dir j cs ∧ eraseL cs = rcs := by
  cases t with
  | dir j cs =>
    simp [eraseF] at h
    exact ⟨j, cs, rfl, h⟩
  | file j l c => simp [eraseF] at h

theorem eraseF_file_shape (t : FNode) (c : List Nat) (h : eraseF t = .file c) :
    ∃ j l, t = .file j l c := by
  cases t with
  | dir j cs => simp [eraseF] at h
  | file j l c2 =>
    simp [eraseF] at h
    exact ⟨j, l, by rw [h]⟩

/-! ## More membership helpers -/

theorem namesOkL_mem (cs : List (String × FNode)) (n : String) (c : FNode)
    (hok : namesOkL cs = true) (hm : (n, c) ∈ cs) : namesOkF c = true := by
  induction cs with
  | nil => simp at hm
  | cons e rest ih =>
    obtain ⟨m, c2⟩ := e
    simp [namesOkL] at hok
    rcases List.mem_cons.mp hm with h | h
    · cases h
      exact hok.1
    · exact ih hok.2 h

theorem remoteL_mem (cs : List (String × FNode)) (n : String) (c : FNode)
    (hr : remoteL cs = true) (hm : (n, c) ∈ cs) : remoteF c = true := by
  induction cs with
  | nil => simp at hm
  | cons e rest ih =>
    obtain ⟨m, c2⟩ := e
    simp [remoteL] at hr
    rcases List.mem_cons.mp hm with h | h
    · cases h
      exact hr.1
    · exact ih hr.2 h

theorem nodup_inosF_of_mem (cs : List (String × FNode)) (n : String) (c : FNode)
    (hnd : (inosL cs).Nodup) (hm : (n, c) ∈ cs) : (inosF c).Nodup := by
  induction cs with
  | nil => simp at hm
  | cons e rest ih =>
    obtain ⟨m, c2⟩ := e
    rw [show inosL ((m, c2) :: rest) = inosF c2 ++ inosL rest from by simp [inosL]] at hnd
    rcases List.mem_cons.mp hm with h | h
    · cases h
      exact hnd.of_append_left
    · exact ih hnd.of_append_right h

theorem updInoL_append (xs ys : List (String × FNode)) (i : Nat) (f : FNode → FNode) :
    updInoL (xs ++ ys) i f = updInoL xs i f ++ updInoL ys i f := by
  induction xs with
  | nil => simp [updInoL]
  | cons e rest ih =>
    obtain ⟨n, c⟩ := e
    simp [updInoL, ih]

theorem assocStr_first_decomp {α : Type} (cs1 cs2 : List (String × α)) (n : String) (a : α)
    (h : n ∉ namesOf cs1) : assocStr (cs1 ++ (n, a) :: cs2) n = some a := by
  rw [assocStr_append_none _ _ _ ((assocStr_none_iff _ _).mpr h), assocStr_cons_self]

/-! ## Path navigation lemmas -/

theorem getNode_append (t : FNode) (p q : List String) :
    getNode t (p ++ q) = (getNode t p).bind fun s => getNode s q := by
  induction p generalizing t with
  | nil => simp [getNode]
  | cons n rest ih =>
    cases t with
    | file j l c => simp [getNode]
    | dir j cs =>
      cases h : assocStr cs n with
      | none => simp [getNode, h]
      | some c => simp [getNode, h, ih c]

theorem getNode_ino_mem (t : FNode) (p : List String) (s : FNode)
    (h : getNode t p = some s) : s.ino ∈ inosF t := by
  induction p generalizing t with
  | nil =>
    simp [getNode] at h
    subst h
    cases t <;> simp [inosF, FNode.ino]
  | cons n rest ih =>
    cases t with
    | file j l c => simp [getNode] at h
    | dir j cs =>
      simp only [getNode] at h
      cases ha : assocStr cs n with
      | none => rw [ha] at h; simp at h
      | some c =>
        rw [ha] at h
        have hmem := assocStr_mem _ _ _ ha
        have hin := ih c h
        simp [inosF]
        exact Or.inr (mem_inosL _ _ _ hmem _ hin)

theorem parentOf_exists (q : Nat) (t : FNode) (p : List String) (s : FNode)
    (h : getNode t p = some s) : ∃ pa, parentOf q t p = some pa := by
  induction p generalizing t q with
  | nil =>
    refine ⟨q, ?_⟩
    cases t <;> simp [parentOf]
  | cons n rest ih =>
    cases t with
    | file j l c => simp [getNode] at h
    | dir j cs =>
      simp only [getNode] at h
      cases ha : assocStr cs n with
      | none => rw [ha] at h; simp at h
      | some c =>
        rw [ha] at h
        obtain ⟨pa, hpa⟩ := ih j c h
        exact ⟨pa, by simp [parentOf, ha, hpa]⟩

theorem parentOf_append (q pa : Nat) (t s : FNode) (p q2 : List String)
    (hg : getNode t p = some s) (hp : parentOf q t p = some pa) :
    parentOf q t (p ++ q2) = parentOf pa s q2 := by
  induction p generalizing t q with
  | nil =>
    simp [getNode] at hg
    simp [parentOf] at hp
    subst hg
    subst hp
    rfl
  | cons n rest ih =>
    cases t with
    | file j l c => simp [getNode] at hg
    | dir j cs =>
      simp only [getNode] at hg
      simp only [parentOf] at hp
      cases ha : assocStr cs n with
      | none => rw [ha] at hg; simp at hg
      | some c =>
        rw [ha] at hg hp
        simp only [List.cons_append, parentOf, ha]
        exact ih j c hg hp

theorem wf_getNode (q b : Nat) (t : FNode) (p : List String) (s : FNode) (pa : Nat)
    (hw : wfF q b t = true) (hg : getNode t p = some s) (hp : parentOf q t p = some pa) :
    wfF pa b s = true := by
  induction p generalizing t q with
  | nil =>
    simp [getNode] at hg
    simp [parentOf] at hp
    subst hg
    subst hp
    exact hw
  | cons n rest ih =>
    cases t with
    | file j l c => simp [getNode] at hg
    | dir j cs =>
      simp only [getNode] at hg
      simp only [parentOf] at hp
      cases ha : assocStr cs n with
      | none => rw [ha] at hg; simp at hg
      | some c =>
        rw [ha] at hg hp
        simp [wfF] at hw
        exact ih j c (wfL_mem _ _ _ _ _ hw.2 (assocStr_mem _ _ _ ha)) hg hp

theorem namesOk_getNode (t : FNode) (p : List String) (s : FNode)
    (hok : namesOkF t = true) (hg : getNode t p = some s) : namesOkF s = true := by
  induction p generalizing t with
  | nil =>
    simp [getNode] at hg
    subst hg
    exact hok
  | cons n rest ih =>
    cases t with
    | file j l c => simp [getNode] at hg
    | dir j cs =>
      simp only [getNode] at hg
      cases ha : assocStr cs n with
      | none => rw [ha] at hg; simp at hg
      | some c =>
        rw [ha] at hg
        simp [namesOkF] at hok
        exact ih c (namesOkL_mem _ _ _ hok.2 (assocStr_mem _ _ _ ha)) hg

theorem remote_getNode (t : FNode) (p : List String) (s : FNode)
    (hr : remoteF t = true) (hg : getNode t p = some s) : remoteF s = true := by
  induction p generalizing t with
  | nil =>
    simp [getNode] at hg
    subst hg
    exact hr
  | cons n rest ih =>
    cases t with
    | file j l c => simp [getNode] at hg
    | dir j cs =>
      simp only [getNode] at hg
      cases ha : assocStr cs n with
      | none => rw [ha] at hg; simp at hg
      | some c =>
        rw [ha] at hg
        simp [remoteF] at hr
        exact ih c (remoteL_mem _ _ _ hr (assocStr_mem _ _ _ ha)) hg

theorem findWPL_first (cs : List (String × FNode)) (j i : Nat) (n : String) (c : FNode)
    (r : Nat × FNode) (hnd : (inosL cs).Nodup) (ha : assocStr cs n = some c)
    (hi : i ∈ inosF c) (hf : findWP j c i = some r) : findWPL j cs i = some r := by
  induction cs with
  | nil => simp [assocStr] at ha
  | cons e rest ih =>
    obtain ⟨m, c0⟩ := e
    have hnd2 : (inosF c0 ++ inosL rest).Nodup := by
      rw [show inosF c0 ++ inosL rest = inosL ((m, c0) :: rest) from by simp [inosL]]
      exact hnd
    by_cases hm : m = n
    · subst hm
      rw [assocStr_cons_self] at ha
      cases ha
      simp [findWPL, hf]
    · rw [assocStr_cons_ne _ _ _ _ hm] at ha
      have hmem := assocStr_mem _ _ _ ha
      have hir : i ∈ inosL rest := mem_inosL _ _ _ hmem _ hi
      have hni : i ∉ inosF c0 := fun hin => (List.disjoint_of_nodup_append hnd2) hin hir
      rw [findWPL]
      rw [findWP_not_mem.1 c0 j i hni]
      exact ih hnd2.of_append_right ha

theorem findWP_spec (p : List String) (t s : FNode) (q pa : Nat)
    (hnd : (inosF t).Nodup) (hg : getNode t p = some s) (hp : parentOf q t p = some pa) :
    findWP q t s.ino = some (pa, s) := by
  induction p generalizing t q with
  | nil =>
    simp [getNode] at hg
    simp [parentOf] at hp
    subst hg
    subst hp
    rw [findWP.eq_def]
    simp
  | cons n rest ih =>
    cases t with
    | file j l c => simp [getNode] at hg
    | dir j cs =>
      simp only [getNode] at hg
      simp only [parentOf] at hp
      cases ha : assocStr cs n with
      | none => rw [ha] at hg; simp at hg
      | some c =>
        rw [ha] at hg hp
        have hsc : s.ino ∈ inosF c := getNode_ino_mem c rest s hg
        have hnd2 : (j :: inosL cs).Nodup := by
          rw [show j :: inosL cs = inosF (FNode.dir j cs) from by simp [inosF]]
          exact hnd
        have hj : j ∉ inosL cs := (List.nodup_cons.mp hnd2).1
        have hcs : (inosL cs).Nodup := (List.nodup_cons.mp hnd2).2
        have hmem := assocStr_mem _ _ _ ha
        have hjne : ¬(j = s.ino) := fun he => hj (he ▸ mem_inosL cs n c hmem _ hsc)
        rw [findWP]
        rw [if_neg (show ¬((FNode.dir j cs).ino = s.ino) from hjne)]
        exact findWPL_first cs j s.ino n c (pa, s) hcs ha hsc
          (ih c j (nodup_inosF_of_mem _ _ _ hcs hmem) hg hp)

/-! ## Replacement lemmas -/

theorem updIno_spec (p : List String) (t s : FNode) (f : FNode → FNode)
    (hnd : (inosF t).Nodup) (hok : namesOkF t = true) (hg : getNode t p = some s) :
    updIno t s.ino f = setNode t p (f s) := by
  induction p generalizing t with
  | nil =>
    simp [getNode] at hg
    subst hg
    rw [updIno.eq_def]
    simp [setNode]
  | cons n rest ih =>
    cases t with
    | file j l c => simp [getNode] at hg
    | dir j cs =>
      simp only [getNode] at hg
      cases ha : assocStr cs n with
      | none => rw [ha] at hg; simp at hg
      | some c =>
        rw [ha] at hg
        have hsc : s.ino ∈ inosF c := getNode_ino_mem c rest s hg
        have hnd2 : (j :: inosL cs).Nodup := by
          rw [show j :: inosL cs = inosF (FNode.dir j cs) from by simp [inosF]]
          exact hnd
        have hj : j ∉ inosL cs := (List.nodup_cons.mp hnd2).1
        have hcs : (inosL cs).Nodup := (List.nodup_cons.mp hnd2).2
        have hmemc := assocStr_mem _ _ _ ha
        have hjne : ¬(j = s.ino) := fun he => hj (he ▸ mem_inosL cs n c hmemc _ hsc)
        simp only [namesOkF, Bool.and_eq_true] at hok
        obtain ⟨hndn, hokl⟩ := hok
        have hC : updIno c s.ino f = setNode c rest (f s) :=
          ih c (nodup_inosF_of_mem _ _ _ hcs hmemc) (namesOkL_mem _ _ _ hokl hmemc) hg
        obtain ⟨cs1, cs2, hceq, hn1⟩ := assocStr_decomp cs n c ha
        have hnames : (namesOf cs).Nodup := (nodupB_iff _).mp hndn
        have hn2 : n ∉ namesOf cs2 := by
          rw [hceq, namesOf_append, namesOf_cons] at hnames
          exact (List.nodup_cons.mp hnames.of_append_right).1
        subst hceq
        have hninos : (inosL cs1 ++ (inosF c ++ inosL cs2)).Nodup := by
          simpa [inosL_append, inosL] using hcs
        have hin1 : s.ino ∉ inosL cs1 := fun hm1 =>
          (List.disjoint_of_nodup_append hninos) hm1 (List.mem_append.mpr (Or.inl hsc))
        have hin2 : s.ino ∉ inosL cs2 := fun hm2 =>
          (List.disjoint_of_nodup_append hninos.of_append_right) hsc hm2
        rw [updIno]
        rw [if_neg (show ¬((FNode.dir j (cs1 ++ (n, c) :: cs2)).ino = s.ino) from hjne)]
        simp only [setNode]
        rw [updInoL_append, List.map_append]
        rw [updIno_not_mem.2 cs1 s.ino f hin1, condMap_id cs1 n _ hn1]
        simp only [updInoL]
        rw [updIno_not_mem.2 cs2 s.ino f hin2, hC]
        simp [condMap_id cs2 n _ hn2]

theorem setNode_inos (p : List String) (t s : FNode)
    (hok : namesOkF t = true) (hg : getNode t p = some s) :
    ∃ pre post, inosF t = pre ++ inosF s ++ post ∧
      ∀ r, inosF (setNode t p r) = pre ++ inosF r ++ post := by
  induction p generalizing t with
  | nil =>
    simp [getNode] at hg
    subst hg
    exact ⟨[], [], by simp, fun r => by simp [setNode]⟩
  | cons n rest ih =>
    cases t with
    | file j l c => simp [getNode] at hg
    | dir j cs =>
      simp only [getNode] at hg
      cases ha : assocStr cs n with
      | none => rw [ha] at hg; simp at hg
      | some c =>
        rw [ha] at hg
        simp only [namesOkF, Bool.and_eq_true] at hok
        obtain ⟨hndn, hokl⟩ := hok
        have hmemc := assocStr_mem _ _ _ ha
        obtain ⟨pre2, post2, hdecomp, hset⟩ :=
          ih c (namesOkL_mem _ _ _ hokl hmemc) hg
        obtain ⟨cs1, cs2, hceq, hn1⟩ := assocStr_decomp cs n c ha
        have hnames : (namesOf cs).Nodup := (nodupB_iff _).mp hndn
        have hn2 : n ∉ namesOf cs2 := by
          rw [hceq, namesOf_append, namesOf_cons] at hnames
          exact (List.nodup_cons.mp hnames.of_append_right).1
        subst hceq
        refine ⟨j :: inosL cs1 ++ pre2, post2 ++ inosL cs2, ?_, ?_⟩
        · simp [inosF, inosL_append, inosL, hdecomp]
        · intro r
          simp only [setNode]
          rw [List.map_append, condMap_id cs1 n _ hn1]
          simp only [List.map]
          simp only [if_true]
          rw [condMap_id cs2 n _ hn2]
          simp [inosF, inosL_append, inosL, hset r]

theorem getNode_setNode (p : List String) (t s : FNode)
    (hok : namesOkF t = true) (hg : getNode t p = some s) (r : FNode) (q : List String) :
    getNode (setNode t p r) (p ++ q) = getNode r q := by
  induction p generalizing t with
  | nil => simp [setNode]
  | cons n rest ih =>
    cases t with
    | file j l c => simp [getNode] at hg
    | dir j cs =>
      simp only [getNode] at hg
      cases ha : assocStr cs n with
      | none => rw [ha] at hg; simp at hg
      | some c =>
        rw [ha] at hg
        simp only [namesOkF, Bool.and_eq_true] at hok
        obtain ⟨hndn, hokl⟩ := hok
        have hmemc := assocStr_mem _ _ _ ha
        simp only [setNode, List.cons_append, getNode]
        rw [assocStr_condMap, if_pos rfl, ha]
        simp only [Option.map_some]
        exact ih c (namesOkL_mem _ _ _ hokl hmemc) hg

theorem parentOf_setNode (p : List String) (t s : FNode) (q0 pa : Nat)
    (hok : namesOkF t = true) (hg : getNode t p = some s)
    (hp : parentOf q0 t p = some pa) (r : FNode) (q : List String) :
    parentOf q0 (setNode t p r) (p ++ q) = parentOf pa r q := by
  induction p generalizing t q0 with
  | nil =>
    simp [getNode] at hg
    simp [parentOf] at hp
    subst hg
    subst hp
    simp [setNode]
  | cons n rest ih =>
    cases t with
    | file j l c => simp [getNode] at hg
    | dir j cs =>
      simp only [getNode] at hg
      simp only [parentOf] at hp
      cases ha : assocStr cs n with
      | none => rw [ha] at hg; simp at hg
      | some c =>
        rw [ha] at hg hp
        simp only [namesOkF, Bool.and_eq_true] at hok
        obtain ⟨hndn, hokl⟩ := hok
        have hmemc := assocStr_mem _ _ _ ha
        simp only [setNode, List.cons_append, parentOf]
        rw [assocStr_condMap, if_pos rfl, ha]
        simp only [Option.map_some]
        exact ih c j (namesOkL_mem _ _ _ hokl hmemc) hg hp

theorem namesOk_setNode (p : List String) (t r : FNode)
    (hok : namesOkF t = true) (hr : namesOkF r = true) :
    namesOkF (setNode t p r) = true := by
  induction p generalizing t with
  | nil => simpa [setNode] using hr
  | cons n rest ih =>
    cases t with
    | file j l c => simpa [setNode] using hok
    | dir j cs =>
      simp only [setNode, namesOkF, Bool.and_eq_true] at hok ⊢
      refine ⟨by rw [condMap_names]; exact hok.1, ?_⟩
      have hokl := hok.2
      clear hok
      induction cs with
      | nil => simp [namesOkL]
      | cons e rest2 ih2 =>
        obtain ⟨m, c⟩ := e
        simp only [namesOkL, Bool.and_eq_true] at hokl
        dsimp only [List.map]
        by_cases hm : m = n
        · subst hm
          rw [if_pos rfl]
          simp only [namesOkL, Bool.and_eq_true]
          exact ⟨ih c hokl.1, ih2 hokl.2⟩
        · rw [if_neg hm]
          simp only [namesOkL, Bool.and_eq_true]
          exact ⟨hokl.1, ih2 hokl.2⟩

theorem remote_setNode (p : List String) (t r : FNode)
    (hre : remoteF t = true) (hr : remoteF r = true) :
    remoteF (setNode t p r) = true := by
  induction p generalizing t with
  | nil => simpa [setNode] using hr
  | cons n rest ih =>
    cases t with
    | file j l c => simpa [setNode] using hre
    | dir j cs =>
      simp only [setNode, remoteF] at hre ⊢
      induction cs with
      | nil => simp [remoteL]
      | cons e rest2 ih2 =>
        obtain ⟨m, c⟩ := e
        simp only [remoteL, Bool.and_eq_true] at hre
        dsimp only [List.map]
        by_cases hm : m = n
        · subst hm
          rw [if_pos rfl]
          simp only [remoteL, Bool.and_eq_true]
          exact ⟨ih c hre.1, ih2 hre.2⟩
        · rw [if_neg hm]
          simp only [remoteL, Bool.and_eq_true]
          exact ⟨hre.1, ih2 hre.2⟩

theorem wf_setNode (p : List String) (t s r : FNode) (q b pa : Nat)
    (hok : namesOkF t = true) (hw : wfF q b t = true)
    (hg : getNode t p = some s) (hp : parentOf q t p = some pa)
    (hr : wfF pa b r = true) : wfF q b (setNode t p r) = true := by
  induction p generalizing t q with
  | nil =>
    simp [getNode] at hg
    simp [parentOf] at hp
    subst hg
    subst hp
    simpa [setNode] using hr
  | cons n rest ih =>
    cases t with
    | file j l c => simp [getNode] at hg
    | dir j cs =>
      simp only [getNode] at hg
      simp only [parentOf] at hp
      cases ha : assocStr cs n with
      | none => rw [ha] at hg; simp at hg
      | some c =>
        rw [ha] at hg hp
        simp only [namesOkF, Bool.and_eq_true] at hok
        obtain ⟨hndn, hokl⟩ := hok
        have hmemc := assocStr_mem _ _ _ ha
        simp only [wfF, Bool.and_eq_true] at hw
        obtain ⟨⟨h1, h2⟩, h3⟩ := hw
        obtain ⟨cs1, cs2, hceq, hn1⟩ := assocStr_decomp cs n c ha
        have hnames : (namesOf cs).Nodup := (nodupB_iff _).mp hndn
        have hn2 : n ∉ namesOf cs2 := by
          rw [hceq, namesOf_append, namesOf_cons] at hnames
          exact (List.nodup_cons.mp hnames.of_append_right).1
        have hCres : wfF j b (setNode c rest r) = true :=
          ih c j (namesOkL_mem _ _ _ hokl hmemc)
            (wfL_mem _ _ _ _ _ h3 hmemc) hg hp
        subst hceq
        simp only [setNode, wfF, Bool.and_eq_true]
        refine ⟨⟨h1, h2⟩, ?_⟩
        rw [List.map_append, condMap_id cs1 n _ hn1]
        simp only [List.map, if_true]
        rw [condMap_id cs2 n _ hn2]
        rw [wfL_append] at h3 ⊢
        simp only [Bool.and_eq_true] at h3 ⊢
        refine ⟨h3.1, ?_⟩
        simp only [wfL, Bool.and_eq_true] at h3 ⊢
        exact ⟨hCres, h3.2.2⟩

theorem erase_setNode (p : List String) (t r : FNode) :
    eraseF (setNode t p r) = rset (eraseF t) p (eraseF r) := by
  induction p generalizing t with
  | nil => simp [setNode, rset]
  | cons n rest ih =>
    cases t with
    | file j l c => simp [setNode, eraseF, rset]
    | dir j cs =>
      simp only [setNode, eraseF, rset]
      congr 1
      induction cs with
      | nil => simp [eraseL]
      | cons e rest2 ih2 =>
        obtain ⟨m, c⟩ := e
        by_cases hm : m = n
        · subst hm
          simp [eraseL, ih c, ih2]
        · simp [eraseL, hm, ih2]

theorem rset_rset (p : List String) (t r1 r2 : RNode) :
    rset (rset t p r1) p r2 = rset t p r2 := by
  induction p generalizing t with
  | nil => simp [rset]
  | cons n rest ih =>
    cases t with
    | file c => simp [rset]
    | dir cs =>
      simp only [rset]
      congr 1
      induction cs with
      | nil => simp
      | cons e rest2 ih2 =>
        obtain ⟨m, c⟩ := e
        by_cases hm : m = n
        · subst hm
          simp [ih c, ih2]
        · simp [hm, ih2]

/-! ## Reference-level navigation lemmas -/

theorem getR_erase (t : FNode) (p : List String) :
    getR (eraseF t) p = Option.map eraseF (getNode t p) := by
  induction p generalizing t with
  | nil => simp [getR, getNode]
  | cons n rest ih =>
    cases t with
    | file j l c => simp [eraseF, getR, getNode]
    | dir j cs =>
      simp only [eraseF, getR, getNode]
      rw [assocStr_eraseL]
      cases ha : assocStr cs n with
      | none => simp
      | some c => simp [ih c]

theorem getR_append (t : RNode) (p q : List String) :
    getR t (p ++ q) = (getR t p).bind fun s => getR s q := by
  induction p generalizing t with
  | nil => simp [getR]
  | cons n rest ih =>
    cases t with
    | file c => simp [getR]
    | dir cs =>
      cases h : assocStr cs n with
      | none => simp [getR, h]
      | some c => simp [getR, h, ih c]

theorem refWfL_mem (cs : List (String × RNode)) (n : String) (c : RNode)
    (hok : refWfL cs = true) (hm : (n, c) ∈ cs) : refWfN c = true := by
  induction cs with
  | nil => simp at hm
  | cons e rest ih =>
    obtain ⟨m, c2⟩ := e
    simp [refWfL] at hok
    rcases List.mem_cons.mp hm with h | h
    · cases h
      exact hok.1
    · exact ih hok.2 h

theorem assoc_of_mem_nodup {α : Type} (cs : List (String × α)) (n : String) (a : α)
    (hnd : (namesOf cs).Nodup) (hm : (n, a) ∈ cs) : assocStr cs n = some a := by
  induction cs with
  | nil => simp at hm
  | cons e rest ih =>
    obtain ⟨m, a0⟩ := e
    rw [namesOf_cons] at hnd
    rcases List.mem_cons.mp hm with h | h
    · cases h
      exact assocStr_cons_self _ _ _
    · have hmn : m ≠ n := by
        intro he
        subst he
        exact (List.nodup_cons.mp hnd).1 (by
          have : (m, a) ∈ rest := h
          exact List.mem_map.mpr ⟨(m, a), this, rfl⟩)
      rw [assocStr_cons_ne _ _ _ _ hmn]
      exact ih (List.nodup_cons.mp hnd).2 h

theorem map_cond_comp {α : Type} (rcs : List (String × α)) (n : String)
    (F G H : String × α → α)
    (hFG : ∀ e ∈ rcs, e.1 = n → G (e.1, F e) = H e) :
    List.map (fun e => if e.1 = n then (e.1, G e) else e)
        (List.map (fun e => if e.1 = n then (e.1, F e) else e) rcs) =
      List.map (fun e => if e.1 = n then (e.1, H e) else e) rcs := by
  induction rcs with
  | nil => rfl
  | cons e rest ih =>
    obtain ⟨m, c⟩ := e
    by_cases hm : m = n
    · subst hm
      simp [hFG (m, c) (List.mem_cons_self _ _) rfl,
        ih fun e2 he hen => hFG e2 (List.mem_cons_of_mem _ he) hen]
    · simp [hm, ih fun e2 he hen => hFG e2 (List.mem_cons_of_mem _ he) hen]

theorem refAddFile_cons (n : String) (q : List String) (hq : q ≠ []) (B : List Nat)
    (rcs : List (String × RNode)) :
    refAddFile (n :: q) B rcs = rcs.map fun e =>
      if e.1 = n then
        (e.1, match e.2 with
          | RNode.dir cs2 => RNode.dir (refAddFile q B cs2)
          | other => other)
      else e := by
  cases q with
  | nil => exact absurd rfl hq
  | cons m rest =>
    simp only [refAddFile]
    refine List.map_eq_map_iff.mpr ?_
    intro e _
    obtain ⟨m0, c0⟩ := e
    by_cases he : m0 = n
    · cases c0 <;> simp [he]
    · simp [he]

/-- Replacing the directory at `p` by itself with a fresh file appended, then
replacing that file's content, is exactly what `add_file` does to the
reference tree. -/
theorem rset_addFile (p : List String) (rcs dcs : List (String × RNode))
    (name : String) (B : List Nat)
    (hok : refWfN (RNode.dir rcs) = true)
    (hg : getR (RNode.dir rcs) p = some (RNode.dir dcs))
    (hnone : assocStr dcs name = none) :
    rset (rset (RNode.dir rcs) p (RNode.dir (dcs ++ [(name, RNode.file [])])))
        (p ++ [name]) (RNode.file B)
      = RNode.dir (refAddFile (p ++ [name]) B rcs) := by
  induction p generalizing rcs with
  | nil =>
    simp only [getR, Option.some.injEq, RNode.dir.injEq] at hg
    subst hg
    have hnn : name ∉ namesOf rcs := (assocStr_none_iff _ _).mp hnone
    simp only [List.nil_append]
    rw [show rset (RNode.dir rcs) []
        (RNode.dir (rcs ++ [(name, RNode.file [])])) =
        RNode.dir (rcs ++ [(name, RNode.file [])]) from rfl]
    simp only [rset]
    rw [List.map_append, condMap_id rcs name _ hnn]
    simp [refAddFile, rset]
  | cons n rest ih =>
    simp only [getR] at hg
    cases ha : assocStr rcs n with
    | none => rw [ha] at hg; simp at hg
    | some c =>
      rw [ha] at hg
      cases c with
      | file cc =>
        cases rest with
        | nil => simp [getR] at hg
        | cons r0 rest2 => simp [getR] at hg
      | dir ccs =>
        simp only [refWfN, Bool.and_eq_true] at hok
        obtain ⟨hndn, hwfl⟩ := hok
        have hnames : (namesOf rcs).Nodup := (nodupB_iff _).mp hndn
        have hmemc := assocStr_mem _ _ _ ha
        have hokc : refWfN (RNode.dir ccs) = true := refWfL_mem _ _ _ hwfl hmemc
        simp only [List.cons_append, rset]
        rw [refAddFile_cons n (rest ++ [name]) (by simp) B rcs]
        congr 1
        refine map_cond_comp rcs n _ _ _ ?_
        intro e he hen
        have hmm : (e.1, e.2) ∈ rcs := by simpa using he
        rw [hen] at hmm
        have hae : assocStr rcs n = some e.2 := assoc_of_mem_nodup _ _ _ hnames hmm
        rw [ha] at hae
        have he2 : e.2 = RNode.dir ccs := by
          injection hae with h2
          exact h2.symm
        rw [he2]
        exact ih ccs hokc hg

/-! ## Seeding lemmas -/

theorem erase_seed :
    (∀ r : RNode, ∀ i, eraseF (seedN i r).1 = r) ∧
    (∀ cs : List (String × RNode), ∀ i, eraseL (seedL i cs).1 = cs) := by
  have hf : ∀ c, ∀ i, eraseF (seedN i (RNode.file c)).1 = RNode.file c := by
    intro c i
    simp [seedN, eraseF]
  have hd : ∀ cs, (∀ i, eraseL (seedL i cs).1 = cs) →
      ∀ i, eraseF (seedN i (RNode.dir cs)).1 = RNode.dir cs := by
    intro cs ih i
    simp [seedN, eraseF, ih]
  have hn : ∀ i, eraseL (seedL i ([] : List (String × RNode))).1 = [] := by
    intro i
    simp [seedL, eraseL]
  have hc : ∀ n c rest, (∀ i, eraseF (seedN i c).1 = c) →
      (∀ i, eraseL (seedL i rest).1 = rest) →
      ∀ i, eraseL (seedL i ((n, c) :: rest)).1 = (n, c) :: rest := by
    intro n c rest ihc ihr i
    simp [seedL, eraseL, ihc, ihr]
  exact ⟨@rnodeIndF _ _ hf hd hn hc, @rnodeIndL _ _ hf hd hn hc⟩

theorem seed_wf :
    (∀ r : RNode, ∀ i,
      (∀ x ∈ inosF (seedN i r).1, i ≤ x ∧ x < (seedN i r).2) ∧
      (inosF (seedN i r).1).Nodup ∧
      (∀ p b, p < i → (seedN i r).2 ≤ b → wfF p b (seedN i r).1 = true) ∧
      remoteF (seedN i r).1 = true ∧ i < (seedN i r).2) ∧
    (∀ cs : List (String × RNode), ∀ i,
      (∀ x ∈ inosL (seedL i cs).1, i ≤ x ∧ x < (seedL i cs).2) ∧
      (inosL (seedL i cs).1).Nodup ∧
      (∀ p b, p < i → (seedL i cs).2 ≤ b → wfL p b (seedL i cs).1 = true) ∧
      remoteL (seedL i cs).1 = true ∧ i ≤ (seedL i cs).2) := by
  have hf : ∀ c, ∀ i,
      (∀ x ∈ inosF (seedN i (RNode.file c)).1, i ≤ x ∧ x < (seedN i (RNode.file c)).2) ∧
      (inosF (seedN i (RNode.file c)).1).Nodup ∧
      (∀ p b, p < i → (seedN i (RNode.file c)).2 ≤ b →
        wfF p b (seedN i (RNode.file c)).1 = true) ∧
      remoteF (seedN i (RNode.file c)).1 = true ∧ i < (seedN i (RNode.file c)).2 := by
    intro c i
    refine ⟨?_, ?_, ?_, ?_, ?_⟩
    · intro x hx
      simp only [seedN] at hx ⊢
      simp [inosF] at hx
      omega
    · simp [seedN, inosF]
    · intro p b hp hb
      simp only [seedN] at hb
      simp [seedN, wfF]
      omega
    · simp [seedN, remoteF]
    · simp [seedN]
  have hd : ∀ cs, (∀ i,
      (∀ x ∈ inosL (seedL i cs).1, i ≤ x ∧ x < (seedL i cs).2) ∧
      (inosL (seedL i cs).1).Nodup ∧
      (∀ p b, p < i → (seedL i cs).2 ≤ b → wfL p b (seedL i cs).1 = true) ∧
      remoteL (seedL i cs).1 = true ∧ i ≤ (seedL i cs).2) →
      ∀ i,
      (∀ x ∈ inosF (seedN i (RNode.dir cs)).1, i ≤ x ∧ x < (seedN i (RNode.dir cs)).2) ∧
      (inosF (seedN i (RNode.dir cs)).1).Nodup ∧
      (∀ p b, p < i → (seedN i (RNode.dir cs)).2 ≤ b →
        wfF p b (seedN i (RNode.dir cs)).1 = true) ∧
      remoteF (seedN i (RNode.dir cs)).1 = true ∧ i < (seedN i (RNode.dir cs)).2 := by
    intro cs ih i
    obtain ⟨ha, hb, hw, hre, hle⟩ := ih (i + 1)
    refine ⟨?_, ?_, ?_, ?_, ?_⟩
    · intro x hx
      simp only [seedN] at hx ⊢
      simp [inosF] at hx
      rcases hx with hx | hx
      · subst hx
        omega
      · have := ha x hx
        omega
    · simp only [seedN, inosF]
      refine List.nodup_cons.mpr ⟨?_, hb⟩
      intro hmem
      have := ha i hmem
      omega
    · intro p b hp hbb
      simp only [seedN, wfF, Bool.and_eq_true]
      simp only [seedN] at hbb
      refine ⟨⟨by simpa using hp, by simp; omega⟩, ?_⟩
      exact hw i b (by omega) hbb
    · simpa [seedN, remoteF] using hre
    · simp only [seedN]
      omega
  have hn : ∀ i,
      (∀ x ∈ inosL (seedL i ([] : List (String × RNode))).1,
        i ≤ x ∧ x < (seedL i ([] : List (String × RNode))).2) ∧
      (inosL (seedL i ([] : List (String × RNode))).1).Nodup ∧
      (∀ p b, p < i → (seedL i ([] : List (String × RNode))).2 ≤ b →
        wfL p b (seedL i ([] : List (String × RNode))).1 = true) ∧
      remoteL (seedL i ([] : List (String × RNode))).1 = true ∧
      i ≤ (seedL i ([] : List (String × RNode))).2 := by
    intro i
    refine ⟨?_, ?_, ?_, ?_, ?_⟩ <;> simp [seedL, inosL, wfL, remoteL]
  have hc : ∀ n c rest, (∀ i,
      (∀ x ∈ inosF (seedN i c).1, i ≤ x ∧ x < (seedN i c).2) ∧
      (inosF (seedN i c).1).Nodup ∧
      (∀ p b, p < i → (seedN i c).2 ≤ b → wfF p b (seedN i c).1 = true) ∧
      remoteF (seedN i c).1 = true ∧ i < (seedN i c).2) →
      (∀ i,
      (∀ x ∈ inosL (seedL i rest).1, i ≤ x ∧ x < (seedL i rest).2) ∧
      (inosL (seedL i rest).1).Nodup ∧
      (∀ p b, p < i → (seedL i rest).2 ≤ b → wfL p b (seedL i rest).1 = true) ∧
      remoteL (seedL i rest).1 = true ∧ i ≤ (seedL i rest).2) →
      ∀ i,
      (∀ x ∈ inosL (seedL i ((n, c) :: rest)).1, i ≤ x ∧ x < (seedL i ((n, c) :: rest)).2) ∧
      (inosL (seedL i ((n, c) :: rest)).1).Nodup ∧
      (∀ p b, p < i → (seedL i ((n, c) :: rest)).2 ≤ b →
        wfL p b (seedL i ((n, c) :: rest)).1 = true) ∧
      remoteL (seedL i ((n, c) :: rest)).1 = true ∧ i ≤ (seedL i ((n, c) :: rest)).2 := by
    intro n c rest ihc ihr i
    obtain ⟨ca, cb, cw, cre, clt⟩ := ihc i
    obtain ⟨ra, rb, rw2, rre, rle⟩ := ihr (seedN i c).2
    refine ⟨?_, ?_, ?_, ?_, ?_⟩
    · intro x hx
      simp only [seedL] at hx ⊢
      simp only [inosL, List.mem_append] at hx
      rcases hx with hx | hx
      · have := ca x hx
        omega
      · have := ra x hx
        omega
    · simp only [seedL, inosL]
      refine List.Nodup.append cb rb ?_
      intro x hx1 hx2
      have := ca x hx1
      have := ra x hx2
      omega
    · intro p b hp hbb
      simp only [seedL] at hbb
      simp only [seedL, wfL, Bool.and_eq_true]
      refine ⟨cw p b hp (by omega), ?_⟩
      exact rw2 p b (by omega) hbb
    · simp only [seedL, remoteL, Bool.and_eq_true]
      exact ⟨cre, rre⟩
    · simp only [seedL]
      omega
  exact ⟨@rnodeIndF _ _ hf hd hn hc, @rnodeIndL _ _ hf hd hn hc⟩

/-! ## Directory-list correctness -/

theorem dirPaths_head (cs : List (String × RNode)) (p : List String)
    (hp : p ∈ dirPaths cs) : ∃ m p2, p = m :: p2 ∧ m ∈ namesOf cs := by
  induction cs with
  | nil => simp [dirPaths] at hp
  | cons e rest ih =>
    obtain ⟨n, c⟩ := e
    cases c with
    | dir cs2 =>
      rw [show dirPaths ((n, RNode.dir cs2) :: rest) =
        ([n] :: (dirPaths cs2).map (fun p => n :: p)) ++ dirPaths rest from by
          simp [dirPaths]] at hp
      rcases List.mem_append.mp hp with hp | hp
      · rcases List.mem_cons.mp hp with hp | hp
        · exact ⟨n, [], hp, by simp [namesOf]⟩
        · obtain ⟨p2, _, hpeq⟩ := List.mem_map.mp hp
          exact ⟨n, p2, hpeq.symm, by simp [namesOf]⟩
      · obtain ⟨m, p2, hpeq, hmem⟩ := ih hp
        exact ⟨m, p2, hpeq, by simp [namesOf] at hmem ⊢; exact Or.inr hmem⟩
    | file cc =>
      rw [show dirPaths ((n, RNode.file cc) :: rest) = dirPaths rest from by
        simp [dirPaths]] at hp
      obtain ⟨m, p2, hpeq, hmem⟩ := ih hp
      exact ⟨m, p2, hpeq, by simp [namesOf] at hmem ⊢; exact Or.inr hmem⟩

theorem dirPaths_spec :
    (∀ r : RNode, ∀ cs2, r = RNode.dir cs2 → refWfN r = true →
      ∀ p ∈ dirPaths cs2, ∃ dcs, getR r p = some (RNode.dir dcs)) ∧
    (∀ cs : List (String × RNode), refWfL cs = true → nodupB (namesOf cs) = true →
      ∀ p ∈ dirPaths cs, ∃ dcs, getR (RNode.dir cs) p = some (RNode.dir dcs)) := by
  have hf : ∀ c, ∀ cs2, RNode.file c = RNode.dir cs2 → refWfN (RNode.file c) = true →
      ∀ p ∈ dirPaths cs2, ∃ dcs, getR (RNode.file c) p = some (RNode.dir dcs) := by
    intro c cs2 h
    cases h
  have hd : ∀ cs, (refWfL cs = true → nodupB (namesOf cs) = true →
      ∀ p ∈ dirPaths cs, ∃ dcs, getR (RNode.dir cs) p = some (RNode.dir dcs)) →
      ∀ cs2, RNode.dir cs = RNode.dir cs2 → refWfN (RNode.dir cs) = true →
      ∀ p ∈ dirPaths cs2, ∃ dcs, getR (RNode.dir cs) p = some (RNode.dir dcs) := by
    intro cs ih cs2 heq hok p hp
    cases heq
    simp only [refWfN, Bool.and_eq_true] at hok
    exact ih hok.2 hok.1 p hp
  have hn : refWfL ([] : List (String × RNode)) = true →
      nodupB (namesOf ([] : List (String × RNode))) = true →
      ∀ p ∈ dirPaths ([] : List (String × RNode)),
        ∃ dcs, getR (RNode.dir []) p = some (RNode.dir dcs) := by
    intro _ _ p hp
    simp [dirPaths] at hp
  have hc : ∀ n c rest,
      (∀ cs2, c = RNode.dir cs2 → refWfN c = true →
        ∀ p ∈ dirPaths cs2, ∃ dcs, getR c p = some (RNode.dir dcs)) →
      (refWfL rest = true → nodupB (namesOf rest) = true →
        ∀ p ∈ dirPaths rest, ∃ dcs, getR (RNode.dir rest) p = some (RNode.dir dcs)) →
      refWfL ((n, c) :: rest) = true → nodupB (namesOf ((n, c) :: rest)) = true →
      ∀ p ∈ dirPaths ((n, c) :: rest),
        ∃ dcs, getR (RNode.dir ((n, c) :: rest)) p = some (RNode.dir dcs) := by
    intro n c rest ihc ihr hwf hnd p hp
    simp only [refWfL, Bool.and_eq_true] at hwf
    have hnd2 : nodupB (namesOf rest) = true ∧ n ∉ namesOf rest := by
      rw [namesOf_cons] at hnd
      simp only [nodupB, Bool.and_eq_true] at hnd
      refine ⟨hnd.2, ?_⟩
      intro hmem
      have h1 := hnd.1
      simp at h1
      exact h1 hmem
    have hrest : p ∈ dirPaths rest →
        ∃ dcs, getR (RNode.dir ((n, c) :: rest)) p = some (RNode.dir dcs) := by
      intro hpr
      obtain ⟨m, p2, hpeq, hmem⟩ := dirPaths_head rest p hpr
      obtain ⟨dcs, hdcs⟩ := ihr hwf.2 hnd2.1 p hpr
      refine ⟨dcs, ?_⟩
      subst hpeq
      have hmn : m ≠ n := fun he => hnd2.2 (he ▸ hmem)
      simp only [getR, assocStr_cons_ne _ _ _ _ (fun he => hmn he.symm)] at hdcs ⊢
      exact hdcs
    cases c with
    | dir cs2 =>
      rw [show dirPaths ((n, RNode.dir cs2) :: rest) =
        ([n] :: (dirPaths cs2).map (fun p => n :: p)) ++ dirPaths rest from by
          simp [dirPaths]] at hp
      rcases List.mem_append.mp hp with hp | hp
      · rcases List.mem_cons.mp hp with hp | hp
        · subst hp
          exact ⟨cs2, by simp [getR, assocStr_cons_self]⟩
        · obtain ⟨p2, hp2, hpeq⟩ := List.mem_map.mp hp
          subst hpeq
          obtain ⟨dcs, hdcs⟩ := ihc cs2 rfl hwf.1 p2 hp2
          exact ⟨dcs, by simp [getR, assocStr_cons_self, hdcs]⟩
      · exact hrest hp
    | file cc =>
      rw [show dirPaths ((n, RNode.file cc) :: rest) = dirPaths rest from by
        simp [dirPaths]] at hp
      exact hrest hp
  exact ⟨@rnodeIndF _ _ hf hd hn hc, @rnodeIndL _ _ hf hd hn hc⟩

/-! ## The full-tree comparison succeeds under the invariant -/

theorem depthL_mem (rcs : List (String × RNode)) (n : String) (r : RNode)
    (hm : (n, r) ∈ rcs) : depthR r ≤ depthL rcs := by
  induction rcs with
  | nil => simp at hm
  | cons e rest ih =>
    obtain ⟨m, c⟩ := e
    rcases List.mem_cons.mp hm with h | h
    · cases h
      simp [depthL]
    · have := ih h
      simp [depthL]
      omega

theorem compareChunks_ok (fs : FS) (i fh pa i2 : Nat) (content : List Nat)
    (hfind : fs.find i = some (pa, FNode.file i2 false content)) :
    ∀ off, compareChunks fs i fh content off = true := by
  intro off
  rw [compareChunks]
  by_cases h : off < content.length
  · rw [if_pos h]
    have hread : fs.read i fh off (min MAX_READ_SIZE (content.length - off)) =
        .ok ((content.drop off).take (min MAX_READ_SIZE (content.length - off))) := by
      simp [FS.read, hfind]
    have hlen : ((content.drop off).take (min MAX_READ_SIZE (content.length - off))).length
        = min MAX_READ_SIZE (content.length - off) := by
      simp [List.length_take, List.length_drop]
    have hrec := compareChunks_ok fs i fh pa i2 content hfind
      (off + min MAX_READ_SIZE (content.length - off))
    simp [hread, hlen, hrec]
  · rw [if_neg h]
termination_by off => content.length - off
decreasing_by
  have h1 : 0 < min MAX_READ_SIZE (content.length - off) :=
    lt_min (by norm_num [MAX_READ_SIZE]) (by omega)
  simp_wf
  omega

theorem compare_file_ok (fs : FS) (i pa i2 : Nat) (content : List Nat)
    (hfind : fs.find i = some (pa, FNode.file i2 false content)) :
    compare_file fs i content = true := by
  have hopen : fs.openFile i 0x8000 = .ok i := by
    simp [FS.openFile, hfind]
  rw [compare_file, hopen]
  exact compareChunks_ok fs i i pa i2 content hfind 0

theorem mem_eraseL (cs : List (String × FNode)) (n : String) (c : FNode)
    (hm : (n, c) ∈ cs) : (n, eraseF c) ∈ eraseL cs := by
  induction cs with
  | nil => simp at hm
  | cons e rest ih =>
    obtain ⟨m, c2⟩ := e
    rcases List.mem_cons.mp hm with h | h
    · cases h
      simp [eraseL]
    · simp [eraseL]
      exact Or.inr (by simpa [eraseL] using ih h)

theorem compareDir_ok (fuel : Nat) :
    ∀ (fs : FS) (p : List String) (s : FNode) (pa : Nat) (rcs : List (String × RNode)),
    (inosF fs.root).Nodup → namesOkF fs.root = true → remoteF fs.root = true →
    getNode fs.root p = some s → parentOf FUSE_ROOT_INODE fs.root p = some pa →
    eraseF s = RNode.dir rcs → depthR (RNode.dir rcs) + 1 ≤ fuel →
    compareDirF fuel fs pa s.ino (RNode.dir rcs) = true := by
  induction fuel with
  | zero =>
    intro fs p s pa rcs _ _ _ _ _ _ hdep
    omega
  | succ fuel ih =>
    intro fs p s pa rcs hnd hok hre hg hp her hdep
    obtain ⟨j, cs, hseq, hecs⟩ := eraseF_dir_shape s rcs her
    subst hseq
    have hfind : fs.find (FNode.dir j cs).ino = some (pa, FNode.dir j cs) :=
      findWP_spec p fs.root (FNode.dir j cs) FUSE_ROOT_INODE pa hnd hg hp
    have hino : (FNode.dir j cs).ino = j := rfl
    rw [hino] at hfind
    have hsok : namesOkF (FNode.dir j cs) = true := namesOk_getNode _ _ _ hok hg
    simp only [namesOkF, Bool.and_eq_true] at hsok
    obtain ⟨hndn, hokl⟩ := hsok
    have hnames : (namesOf cs).Nodup := (nodupB_iff _).mp hndn
    have loop : ∀ (cs2 : List (String × FNode)) (k : Nat),
        (∀ e ∈ cs2, e ∈ cs) →
        compareLoop (fun cIno node => compareDirF fuel fs j cIno node) fs j rcs
          (childEntries k cs2) (namesOf (eraseL cs2)) = true := by
      intro cs2
      induction cs2 with
      | nil =>
        intro k _
        simp [childEntries, compareLoop, eraseL, namesOf]
      | cons e cs3 ihl =>
        intro k hsub
        obtain ⟨m, c⟩ := e
        have hmem : (m, c) ∈ cs := hsub (m, c) (List.mem_cons_self _ _)
        have hass : assocStr cs m = some c := assoc_of_mem_nodup _ _ _ hnames hmem
        have hlook : fs.lookup j m = Except.ok (c.ino, c.kind) := by
          simp [FS.lookup, hfind, hass]
        have hassR : assocStr rcs m = some (eraseF c) := by
          rw [← hecs, assocStr_eraseL, hass]
          rfl
        have hgc : getNode fs.root (p ++ [m]) = some c := by
          rw [getNode_append, hg]
          simp [getNode, hass]
        have hpc : parentOf FUSE_ROOT_INODE fs.root (p ++ [m]) = some j := by
          rw [parentOf_append FUSE_ROOT_INODE pa fs.root (FNode.dir j cs) p [m] hg hp]
          simp [parentOf, hass]
        have htail := ihl (k + 1) (fun e2 he => hsub e2 (List.mem_cons_of_mem _ he))
        cases hel : eraseF c with
        | file cc =>
          obtain ⟨ci, cl, hcfile⟩ := eraseF_file_shape c cc hel
          have hrc : remoteF c = true := remote_getNode _ _ _ hre hgc
          rw [hcfile] at hrc
          have hcl : cl = false := by simpa [remoteF] using hrc
          subst hcl
          have hkind : c.kind = FKind.file := by rw [hcfile]; rfl
          have hcf : compare_file fs c.ino cc = true := by
            have hfindc := findWP_spec (p ++ [m]) fs.root c FUSE_ROOT_INODE j hnd hgc hpc
            rw [hcfile] at hfindc ⊢
            exact compare_file_ok fs _ j ci cc hfindc
          simp only [namesOf] at htail
          simp [childEntries, compareLoop, hlook, hassR, hel, hkind, RNode.fileType,
            hcf, htail, eraseL, namesOf]
        | dir rcs2 =>
          obtain ⟨cj, ccs, hcdir, hccs⟩ := eraseF_dir_shape c rcs2 hel
          have hkind : c.kind = FKind.dir := by rw [hcdir]; rfl
          have hdc : depthR (RNode.dir rcs2) + 1 ≤ fuel := by
            have hmr : (m, eraseF c) ∈ rcs := by
              rw [← hecs]
              exact mem_eraseL cs m c hmem
            have := depthL_mem rcs m (eraseF c) hmr
            rw [hel] at this
            simp only [depthR] at hdep this ⊢
            omega
          have hrec : compareDirF fuel fs j c.ino (RNode.dir rcs2) = true :=
            ih fs (p ++ [m]) c j rcs2 hnd hok hre hgc hpc hel hdc
          simp only [namesOf] at htail
          simp [childEntries, compareLoop, hlook, hassR, hel, hkind, RNode.fileType,
            hrec, htail, eraseL, namesOf]
    have hopen : fs.opendir j = Except.ok j := by
      simp [FS.opendir, hfind]
    have hrd : fs.readdir j 0 0 = Except.ok (dirEntries j pa cs) := by
      simp [FS.readdir, hfind]
    have hloop := loop cs 3 (fun e he => he)
    rw [hecs] at hloop
    rw [show (FNode.dir j cs).ino = j from rfl]
    simp [compareDirF, hopen, hrd, dirEntries, hloop]

/-! ## Run-step support lemmas -/

theorem setNode_setNode (p : List String) (t s : FNode) (r r2 : FNode) (q : List String)
    (hok : namesOkF t = true) (hg : getNode t p = some s) :
    setNode (setNode t p r) (p ++ q) r2 = setNode t p (setNode r q r2) := by
  induction p generalizing t with
  | nil => simp [setNode]
  | cons n rest ih =>
    cases t with
    | file j l c => simp [getNode] at hg
    | dir j cs =>
      simp only [getNode] at hg
      cases ha : assocStr cs n with
      | none => rw [ha] at hg; simp at hg
      | some c =>
        rw [ha] at hg
        simp only [namesOkF, Bool.and_eq_true] at hok
        obtain ⟨hndn, hokl⟩ := hok
        have hnames : (namesOf cs).Nodup := (nodupB_iff _).mp hndn
        simp only [setNode, List.cons_append]
        congr 1
        refine map_cond_comp cs n _ _ _ ?_
        intro e he hen
        have hmm : (e.1, e.2) ∈ cs := by simpa using he
        rw [hen] at hmm
        have hae : assocStr cs n = some e.2 := assoc_of_mem_nodup _ _ _ hnames hmm
        rw [ha] at hae
        have he2 : e.2 = c := by
          injection hae with h2
          exact h2.symm
        rw [he2]
        exact ih c (namesOkL_mem _ _ _ hokl (assocStr_mem _ _ _ ha)) hg

theorem setNode_append_entry (dj : Nat) (csd : List (String × FNode)) (name : String)
    (c0 r : FNode) (h : name ∉ namesOf csd) :
    setNode (FNode.dir dj (csd ++ [(name, c0)])) [name] r =
      FNode.dir dj (csd ++ [(name, r)]) := by
  simp only [setNode]
  rw [List.map_append, condMap_id csd name _ h]
  simp

/-- Single-replacement version of the `add_file` commutation: replacing the
directory at `p` by itself with the new file appended is `add_file`. -/
theorem rset_addFile2 (p : List String) (rcs dcs : List (String × RNode))
    (name : String) (B : List Nat)
    (hok : refWfN (RNode.dir rcs) = true)
    (hg : getR (RNode.dir rcs) p = some (RNode.dir dcs))
    (hnone : assocStr dcs name = none) :
    rset (RNode.dir rcs) p (RNode.dir (dcs ++ [(name, RNode.file B)]))
      = RNode.dir (refAddFile (p ++ [name]) B rcs) := by
  induction p generalizing rcs with
  | nil =>
    simp only [getR, Option.some.injEq, RNode.dir.injEq] at hg
    subst hg
    simp [rset, refAddFile]
  | cons n rest ih =>
    simp only [getR] at hg
    cases ha : assocStr rcs n with
    | none => rw [ha] at hg; simp at hg
    | some c =>
      rw [ha] at hg
      cases c with
      | file cc =>
        cases rest with
        | nil => simp [getR] at hg
        | cons r0 rest2 => simp [getR] at hg
      | dir ccs =>
        simp only [refWfN, Bool.and_eq_true] at hok
        obtain ⟨hndn, hwfl⟩ := hok
        have hnames : (namesOf rcs).Nodup := (nodupB_iff _).mp hndn
        have hmemc := assocStr_mem _ _ _ ha
        have hokc : refWfN (RNode.dir ccs) = true := refWfL_mem _ _ _ hwfl hmemc
        simp only [List.cons_append, rset]
        rw [refAddFile_cons n (rest ++ [name]) (by simp) B rcs]
        congr 1
        refine List.map_eq_map_iff.mpr ?_
        intro e he
        by_cases hen : e.1 = n
        · rw [if_pos hen, if_pos hen]
          have hmm : (e.1, e.2) ∈ rcs := by simpa using he
          rw [hen] at hmm
          have hae : assocStr rcs n = some e.2 := assoc_of_mem_nodup _ _ _ hnames hmm
          rw [ha] at hae
          have he2 : e.2 = RNode.dir ccs := by
            injection hae with h2
            exact h2.symm
          rw [he2]
          rw [ih ccs hokc hg]
        · rw [if_neg hen, if_neg hen]

theorem walkDir_ok (fs : FS) (p2 : List String) :
    ∀ (p1 : List String) (s1 s : FNode),
    (inosF fs.root).Nodup →
    getNode fs.root p1 = some s1 → getNode s1 p2 = some s →
    walkDir fs s1.ino p2 = some s.ino := by
  induction p2 with
  | nil =>
    intro p1 s1 s _ _ hg2
    simp [getNode] at hg2
    subst hg2
    rfl
  | cons c rest ih =>
    intro p1 s1 s hnd hg1 hg2
    cases s1 with
    | file j l cnt => simp [getNode] at hg2
    | dir j cs =>
      simp only [getNode] at hg2
      cases ha : assocStr cs c with
      | none => rw [ha] at hg2; simp at hg2
      | some cnode =>
        rw [ha] at hg2
        obtain ⟨pa, hpa⟩ := parentOf_exists FUSE_ROOT_INODE fs.root p1 _ hg1
        have hfind : fs.find (FNode.dir j cs).ino = some (pa, FNode.dir j cs) :=
          findWP_spec p1 fs.root _ FUSE_ROOT_INODE pa hnd hg1 hpa
        have hlook : fs.lookup (FNode.dir j cs).ino c = Except.ok (cnode.ino, cnode.kind) := by
          simp [FS.lookup, hfind, ha]
        rw [walkDir, hlook]
        have hg1c : getNode fs.root (p1 ++ [c]) = some cnode := by
          rw [getNode_append, hg1]
          simp [getNode, ha]
        exact ih (p1 ++ [c]) cnode s hnd hg1c hg2

theorem compare_contents_of_Inv (h : Harness) (hInv : Inv h.fs h.reference) :
    h.compare_contents = true := by
  obtain ⟨he, hwf, hlt, hnd, hok, hre⟩ := hInv
  have hger : eraseF h.fs.root = h.reference.root := by
    simp [eraseF, FS.root, Reference.root, he]
  have hroot : getNode h.fs.root [] = some h.fs.root := rfl
  have hpar : parentOf FUSE_ROOT_INODE h.fs.root [] = some FUSE_ROOT_INODE := by
    simp [FS.root, parentOf]
  have hinoroot : h.fs.root.ino = FUSE_ROOT_INODE := rfl
  rw [Harness.compare_contents]
  have := compareDir_ok (depthR h.reference.root + 1) h.fs [] h.fs.root FUSE_ROOT_INODE
    h.reference.children hnd hok hre hroot hpar
    (by rw [hger]; rfl) (by rfl)
  rw [hinoroot] at this
  exact this

theorem setNode_root_shape (fs : FS) (p : List String) (dj : Nat)
    (csd csX : List (String × FNode))
    (hg : getNode fs.root p = some (FNode.dir dj csd)) :
    setNode fs.root p (FNode.dir dj csX) =
      FNode.dir FUSE_ROOT_INODE (setNode fs.root p (FNode.dir dj csX)).childrenOf := by
  cases p with
  | nil =>
    simp only [getNode, Option.some.injEq] at hg
    have h2 : FNode.dir FUSE_ROOT_INODE fs.rootChildren = FNode.dir dj csd := hg
    have h1 : FUSE_ROOT_INODE = dj := by injection h2 with hj _
    simp [setNode, FNode.childrenOf, ← h1]
  | cons n rest =>
    simp [FS.root, setNode, FNode.childrenOf]

/-- One `Harness::run` iteration succeeds and preserves the invariant. -/
theorem runStep_ok (h : Harness) (op : Op) (hInv : Inv h.fs h.reference) :
    ∃ h2, h.runStep op = some h2 ∧ Inv h2.fs h2.reference ∧
      h2.readdir_limit = h.readdir_limit := by
  obtain ⟨he, hwf, hlt, hnd, hok, hre⟩ := hInv
  have hInv2 : Inv h.fs h.reference := ⟨he, hwf, hlt, hnd, hok, hre⟩
  cases op with
  | WriteFile name dIdx contents =>
    have heroot : eraseF h.fs.root = RNode.dir h.reference.children := by
      simp [eraseF, FS.root, he]
    have hrefwf : refWfN (RNode.dir h.reference.children) = true := by
      have hh := namesOk_erase.1 h.fs.root
      rw [heroot] at hh
      rw [hh]
      exact hok
    have hlen : 0 < (h.reference.directories).length := by simp [Reference.directories]
    have hidx : dIdx.val % (h.reference.directories).length <
        (h.reference.directories).length := Nat.mod_lt _ hlen
    have hget : dIdx.get h.reference =
        some ((h.reference.directories).get ⟨dIdx.val % (h.reference.directories).length, hidx⟩) := by
      simp [DirectoryIndex.get, List.get?_eq_get hidx]
    obtain ⟨p, hp, hpmem⟩ : ∃ p, dIdx.get h.reference = some p ∧ p ∈ h.reference.directories :=
      ⟨_, hget, List.get_mem _ _ _⟩
    have hgetR : ∃ dcs, getR (RNode.dir h.reference.children) p = some (RNode.dir dcs) := by
      rcases List.mem_cons.mp hpmem with hp0 | hp0
      · exact ⟨h.reference.children, by rw [hp0]; rfl⟩
      · have hww := hrefwf
        simp only [refWfN, Bool.and_eq_true] at hww
        exact dirPaths_spec.2 h.reference.children hww.2 hww.1 p hp0
    obtain ⟨dcs, hgR⟩ := hgetR
    have hgn : ∃ d, getNode h.fs.root p = some d ∧ eraseF d = RNode.dir dcs := by
      have hh := getR_erase h.fs.root p
      rw [heroot, hgR] at hh
      cases hgg : getNode h.fs.root p with
      | none => rw [hgg] at hh; simp at hh
      | some d =>
        rw [hgg] at hh
        have hh2 : RNode.dir dcs = eraseF d := by simpa using hh
        exact ⟨d, rfl, hh2.symm⟩
    obtain ⟨d, hgd, hed⟩ := hgn
    obtain ⟨dj, csd, hdeq, hecsd⟩ := eraseF_dir_shape d _ hed
    subst hdeq
    have hwalk : walkDir h.fs FUSE_ROOT_INODE p = some dj := by
      have hh := walkDir_ok h.fs p [] h.fs.root _ hnd rfl hgd
      simpa using hh
    obtain ⟨pa, hpa⟩ := parentOf_exists FUSE_ROOT_INODE h.fs.root p _ hgd
    have hfindd : h.fs.find dj = some (pa, FNode.dir dj csd) := by
      have hh := findWP_spec p h.fs.root _ FUSE_ROOT_INODE pa hnd hgd hpa
      simpa using hh
    have hgR1 : getR (RNode.dir dcs) [name] = assocStr dcs name := by
      cases haa : assocStr dcs name <;> simp [getR, haa]
    have hlook2 : h.reference.lookup (p ++ [name]) = assocStr dcs name := by
      rw [Reference.lookup, getR_append, hgR]
      simpa using hgR1
    cases hcase : assocStr dcs name with
    | some rn =>
      have hassf : ∃ fn, assocStr csd name = some fn := by
        have hh := assocStr_eraseL csd name
        rw [hecsd, hcase] at hh
        cases haa : assocStr csd name with
        | none => rw [haa] at hh; simp at hh
        | some fn => exact ⟨fn, rfl⟩
      obtain ⟨fn, hfn⟩ := hassf
      have hmk : h.fs.mknod dj name = Except.error EEXIST := by
        simp [FS.mknod, hfindd, hfn]
      refine ⟨h, ?_, hInv2, rfl⟩
      rw [Harness.runStep, Harness.runOp]
      rw [hp]
      simp only [hwalk, hlook2, hcase, hmk]
      have hcmp := compare_contents_of_Inv h hInv2
      simp [hcmp]
    | none =>
      have hassf : assocStr csd name = none := by
        have hh := assocStr_eraseL csd name
        rw [hecsd, hcase] at hh
        cases haa : assocStr csd name with
        | none => rfl
        | some fn => rw [haa] at hh; simp at hh
      have hnmem : name ∉ namesOf csd := (assocStr_none_iff _ _).mp hassf
      have hdok : namesOkF (FNode.dir dj csd) = true := namesOk_getNode _ _ _ hok hgd
      simp only [namesOkF, Bool.and_eq_true] at hdok
      have hdre : remoteF (FNode.dir dj csd) = true := remote_getNode _ _ _ hre hgd
      simp only [remoteF] at hdre
      -- the three shapes the target directory takes during mknod, write, release
      have hokA : ∀ (l : Bool) (c : List Nat),
          namesOkF (FNode.dir dj (csd ++ [(name, FNode.file h.fs.nextIno l c)])) = true := by
        intro l c
        simp only [namesOkF, Bool.and_eq_true, namesOkL_append]
        refine ⟨?_, ?_, ?_⟩
        · rw [nodupB_iff, namesOf_append]
          refine List.Nodup.append ((nodupB_iff _).mp hdok.1) (by simp [namesOf]) ?_
          intro x hx1 hx2
          simp [namesOf] at hx2
          subst hx2
          exact hnmem hx1
        · exact hdok.2
        · simp [namesOkL, namesOkF]
      obtain ⟨pre, post, hdecomp, hset⟩ := setNode_inos p h.fs.root _ hok hgd
      simp only [inosF] at hdecomp
      have hni_not : h.fs.nextIno ∉ inosF h.fs.root := by
        intro hmem
        have h1 : inosF h.fs.root = FUSE_ROOT_INODE :: inosL h.fs.rootChildren := by
          simp [FS.root, inosF]
        rw [h1] at hmem
        simp only [FUSE_ROOT_INODE] at hmem
        have hlt2 : 1 < h.fs.nextIno := by simpa [FUSE_ROOT_INODE] using hlt
        rcases List.mem_cons.mp hmem with hh | hh
        · omega
        · have := wfL_mem_bounds _ _ _ hwf _ hh
          omega
      have hnodupA : ∀ (l : Bool) (c : List Nat),
          (inosF (setNode h.fs.root p
            (FNode.dir dj (csd ++ [(name, FNode.file h.fs.nextIno l c)])))).Nodup := by
        intro l c
        rw [hset _]
        have hform : inosF (FNode.dir dj (csd ++ [(name, FNode.file h.fs.nextIno l c)]))
            = (dj :: inosL csd) ++ [h.fs.nextIno] := by
          simp [inosF, inosL_append, inosL]
        rw [hform]
        have hrw : pre ++ ((dj :: inosL csd) ++ [h.fs.nextIno]) ++ post
            = (pre ++ dj :: inosL csd) ++ h.fs.nextIno :: post := by
          simp
        rw [hrw, List.nodup_middle]
        refine List.nodup_cons.mpr ⟨?_, ?_⟩
        · intro hmem
          apply hni_not
          rw [hdecomp]
          simpa using hmem
        · have hnd2 := hnd
          rw [hdecomp] at hnd2
          simpa using hnd2
      -- the mknod call
      have hupd1 : updIno h.fs.root dj
          (fun t => match t with
            | FNode.dir j cs2 => FNode.dir j (cs2 ++ [(name, FNode.file h.fs.nextIno true [])])
            | other => other) =
          setNode h.fs.root p
            (FNode.dir dj (csd ++ [(name, FNode.file h.fs.nextIno true [])])) := by
        have hh := updIno_spec p h.fs.root (FNode.dir dj csd)
          (fun t => match t with
            | FNode.dir j cs2 => FNode.dir j (cs2 ++ [(name, FNode.file h.fs.nextIno true [])])
            | other => other) hnd hok hgd
        simpa using hh
      have hmk : h.fs.mknod dj name =
          Except.ok (⟨h.fs.nextIno + 1,
            (setNode h.fs.root p
              (FNode.dir dj (csd ++ [(name, FNode.file h.fs.nextIno true [])]))).childrenOf⟩,
            h.fs.nextIno) := by
        simp only [FS.mknod, hfindd, hassf]
        rw [hupd1]
      -- facts about the state after mknod
      have hroot1 : (⟨h.fs.nextIno + 1,
          (setNode h.fs.root p
            (FNode.dir dj (csd ++ [(name, FNode.file h.fs.nextIno true [])]))).childrenOf⟩ : FS).root
          = setNode h.fs.root p
            (FNode.dir dj (csd ++ [(name, FNode.file h.fs.nextIno true [])])) :=
        (setNode_root_shape h.fs p dj csd _ hgd).symm
      have hgq : getNode (setNode h.fs.root p
          (FNode.dir dj (csd ++ [(name, FNode.file h.fs.nextIno true [])]))) (p ++ [name])
          = some (FNode.file h.fs.nextIno true []) := by
        rw [getNode_setNode p h.fs.root _ hok hgd]
        simp [getNode, assocStr_append_none _ _ _ hassf, assocStr_cons_self]
      have hpq : parentOf FUSE_ROOT_INODE (setNode h.fs.root p
          (FNode.dir dj (csd ++ [(name, FNode.file h.fs.nextIno true [])]))) (p ++ [name])
          = some dj := by
        rw [parentOf_setNode p h.fs.root _ FUSE_ROOT_INODE pa hok hgd hpa]
        simp [parentOf, assocStr_append_none _ _ _ hassf, assocStr_cons_self]
      have hfind1 : findWP FUSE_ROOT_INODE (setNode h.fs.root p
          (FNode.dir dj (csd ++ [(name, FNode.file h.fs.nextIno true [])]))) h.fs.nextIno
          = some (dj, FNode.file h.fs.nextIno true []) := by
        have hh := findWP_spec (p ++ [name]) _ _ FUSE_ROOT_INODE dj (hnodupA true []) hgq hpq
        simpa using hh
      have hopen : FS.openFile ⟨h.fs.nextIno + 1,
          (setNode h.fs.root p
            (FNode.dir dj (csd ++ [(name, FNode.file h.fs.nextIno true [])]))).childrenOf⟩
          h.fs.nextIno O_WRONLY = Except.ok h.fs.nextIno := by
        simp [FS.openFile, FS.find, hroot1, hfind1, O_WRONLY]
      -- the write call
      have hok1 : namesOkF (setNode h.fs.root p
          (FNode.dir dj (csd ++ [(name, FNode.file h.fs.nextIno true [])]))) = true :=
        namesOk_setNode p _ _ hok (hokA true [])
      have hupd2 : updIno (setNode h.fs.root p
          (FNode.dir dj (csd ++ [(name, FNode.file h.fs.nextIno true [])]))) h.fs.nextIno
          (fun t => match t with
            | FNode.file j l c => FNode.file j l (c ++ contents)
            | other => other)
          = setNode h.fs.root p
            (FNode.dir dj (csd ++ [(name, FNode.file h.fs.nextIno true contents)])) := by
        have hh := updIno_spec (p ++ [name]) _ (FNode.file h.fs.nextIno true [])
          (fun t => match t with
            | FNode.file j l c => FNode.file j l (c ++ contents)
            | other => other) (hnodupA true []) hok1 hgq
        rw [setNode_setNode p h.fs.root _ _ _ [name] hok hgd,
          setNode_append_entry dj csd name _ _ hnmem] at hh
        simpa using hh
      have hwrite : FS.write ⟨h.fs.nextIno + 1,
          (setNode h.fs.root p
            (FNode.dir dj (csd ++ [(name, FNode.file h.fs.nextIno true [])]))).childrenOf⟩
          h.fs.nextIno h.fs.nextIno 0 contents
          = Except.ok (⟨h.fs.nextIno + 1,
            (setNode h.fs.root p
              (FNode.dir dj (csd ++ [(name, FNode.file h.fs.nextIno true contents)]))).childrenOf⟩,
            contents.length) := by
        simp only [FS.write, FS.find, hroot1, hfind1]
        rw [hupd2]
        simp
      -- facts about the state after write
      have hroot2 : (⟨h.fs.nextIno + 1,
          (setNode h.fs.root p
            (FNode.dir dj (csd ++ [(name, FNode.file h.fs.nextIno true contents)]))).childrenOf⟩ : FS).root
          = setNode h.fs.root p
            (FNode.dir dj (csd ++ [(name, FNode.file h.fs.nextIno true contents)])) :=
        (setNode_root_shape h.fs p dj csd _ hgd).symm
      have hgq1 : getNode (setNode h.fs.root p
          (FNode.dir dj (csd ++ [(name, FNode.file h.fs.nextIno true contents)]))) (p ++ [name])
          = some (FNode.file h.fs.nextIno true contents) := by
        rw [getNode_setNode p h.fs.root _ hok hgd]
        simp [getNode, assocStr_append_none _ _ _ hassf, assocStr_cons_self]
      have hpq1 : parentOf FUSE_ROOT_INODE (setNode h.fs.root p
          (FNode.dir dj (csd ++ [(name, FNode.file h.fs.nextIno true contents)]))) (p ++ [name])
          = some dj := by
        rw [parentOf_setNode p h.fs.root _ FUSE_ROOT_INODE pa hok hgd hpa]
        simp [parentOf, assocStr_append_none _ _ _ hassf, assocStr_cons_self]
      have hfind2 : findWP FUSE_ROOT_INODE (setNode h.fs.root p
          (FNode.dir dj (csd ++ [(name, FNode.file h.fs.nextIno true contents)]))) h.fs.nextIno
          = some (dj, FNode.file h.fs.nextIno true contents) := by
        have hh := findWP_spec (p ++ [name]) _ _ FUSE_ROOT_INODE dj
          (hnodupA true contents) hgq1 hpq1
        simpa using hh
      have hok2 : namesOkF (setNode h.fs.root p
          (FNode.dir dj (csd ++ [(name, FNode.file h.fs.nextIno true contents)]))) = true :=
        namesOk_setNode p _ _ hok (hokA true contents)
      -- the release call
      have hupd3 : updIno (setNode h.fs.root p
          (FNode.dir dj (csd ++ [(name, FNode.file h.fs.nextIno true contents)]))) h.fs.nextIno
          (fun t => match t with
            | FNode.file j _ c => FNode.file j false c
            | other => other)
          = setNode h.fs.root p
            (FNode.dir dj (csd ++ [(name, FNode.file h.fs.nextIno false contents)])) := by
        have hh := updIno_spec (p ++ [name]) _ (FNode.file h.fs.nextIno true contents)
          (fun t => match t with
            | FNode.file j _ c => FNode.file j false c
            | other => other) (hnodupA true contents) hok2 hgq1
        rw [setNode_setNode p h.fs.root _ _ _ [name] hok hgd,
          setNode_append_entry dj csd name _ _ hnmem] at hh
        simpa using hh
      have hrel : FS.release ⟨h.fs.nextIno + 1,
          (setNode h.fs.root p
            (FNode.dir dj (csd ++ [(name, FNode.file h.fs.nextIno true contents)]))).childrenOf⟩
          h.fs.nextIno
          = Except.ok ⟨h.fs.nextIno + 1,
            (setNode h.fs.root p
              (FNode.dir dj (csd ++ [(name, FNode.file h.fs.nextIno false contents)]))).childrenOf⟩ := by
        simp only [FS.release, FS.find, hroot2, hfind2]
        rw [hupd3]
      -- the new invariant
      have hroot3 : (⟨h.fs.nextIno + 1,
          (setNode h.fs.root p
            (FNode.dir dj (csd ++ [(name, FNode.file h.fs.nextIno false contents)]))).childrenOf⟩ : FS).root
          = setNode h.fs.root p
            (FNode.dir dj (csd ++ [(name, FNode.file h.fs.nextIno false contents)])) :=
        (setNode_root_shape h.fs p dj csd _ hgd).symm
      have herase3 : eraseL (setNode h.fs.root p
          (FNode.dir dj (csd ++ [(name, FNode.file h.fs.nextIno false contents)]))).childrenOf
          = refAddFile (p ++ [name]) contents h.reference.children := by
        have hE := erase_setNode p h.fs.root
          (FNode.dir dj (csd ++ [(name, FNode.file h.fs.nextIno false contents)]))
        rw [heroot] at hE
        have heA2 : eraseF (FNode.dir dj (csd ++ [(name, FNode.file h.fs.nextIno false contents)]))
            = RNode.dir (dcs ++ [(name, RNode.file contents)]) := by
          simp [eraseF, eraseL_append, hecsd, eraseL]
        rw [heA2, rset_addFile2 p h.reference.children dcs name contents hrefwf hgR hcase] at hE
        rw [setNode_root_shape h.fs p dj csd _ hgd] at hE
        simpa [eraseF] using hE
      have hwfF0 : wfF 0 h.fs.nextIno h.fs.root = true := by
        simp only [FS.root, wfF, Bool.and_eq_true, decide_eq_true_eq]
        refine ⟨⟨by simp [FUSE_ROOT_INODE], by simpa [FUSE_ROOT_INODE] using hlt⟩, hwf⟩
      obtain ⟨pa0, hpa0⟩ := parentOf_exists 0 h.fs.root p _ hgd
      have hwfd0 : wfF pa0 h.fs.nextIno (FNode.dir dj csd) = true :=
        wf_getNode 0 h.fs.nextIno h.fs.root p _ pa0 hwfF0 hgd hpa0
      have hwfA2 : wfF pa0 (h.fs.nextIno + 1)
          (FNode.dir dj (csd ++ [(name, FNode.file h.fs.nextIno false contents)])) = true := by
        simp only [wfF, Bool.and_eq_true, decide_eq_true_eq] at hwfd0 ⊢
        obtain ⟨⟨hp1, hp2⟩, hp3⟩ := hwfd0
        refine ⟨⟨hp1, by omega⟩, ?_⟩
        rw [wfL_append]
        simp only [Bool.and_eq_true]
        refine ⟨wf_mono.2 csd dj _ _ hp3 (by omega), ?_⟩
        simp [wfL, wfF]
        omega
      have hwfnew : wfF 0 (h.fs.nextIno + 1) (setNode h.fs.root p
          (FNode.dir dj (csd ++ [(name, FNode.file h.fs.nextIno false contents)]))) = true :=
        wf_setNode p h.fs.root _ _ 0 (h.fs.nextIno + 1) pa0 hok
          (wf_mono.1 _ _ _ _ hwfF0 (by omega)) hgd hpa0 hwfA2
      have hreA2 : remoteF (FNode.dir dj
          (csd ++ [(name, FNode.file h.fs.nextIno false contents)])) = true := by
        simp only [remoteF, remoteL_append, Bool.and_eq_true]
        exact ⟨hdre, by simp [remoteL, remoteF]⟩
      have hInvNew : Inv ⟨h.fs.nextIno + 1,
          (setNode h.fs.root p
            (FNode.dir dj (csd ++ [(name, FNode.file h.fs.nextIno false contents)]))).childrenOf⟩
          (h.reference.add_file (p ++ [name]) contents) := by
        refine ⟨herase3, ?_, ?_, ?_, ?_, ?_⟩
        · have hh := hwfnew
          rw [setNode_root_shape h.fs p dj csd _ hgd] at hh
          simp only [wfF, Bool.and_eq_true] at hh
          exact hh.2
        · simp only [FUSE_ROOT_INODE] at hlt ⊢
          omega
        · rw [hroot3]
          exact hnodupA false contents
        · rw [hroot3]
          exact namesOk_setNode p _ _ hok (hokA false contents)
        · rw [hroot3]
          exact remote_setNode p _ _ hre hreA2
      refine ⟨⟨h.readdir_limit, h.reference.add_file (p ++ [name]) contents,
        ⟨h.fs.nextIno + 1,
          (setNode h.fs.root p
            (FNode.dir dj (csd ++ [(name, FNode.file h.fs.nextIno false contents)]))).childrenOf⟩⟩,
        ?_, hInvNew, rfl⟩
      rw [Harness.runStep, Harness.runOp, hp]
      simp only [hwalk, hlook2, hcase, hmk, hopen, hwrite, hrel]
      have hcmp := compare_contents_of_Inv
        ⟨h.readdir_limit, h.reference.add_file (p ++ [name]) contents,
          ⟨h.fs.nextIno + 1,
            (setNode h.fs.root p
              (FNode.dir dj (csd ++ [(name, FNode.file h.fs.nextIno false contents)]))).childrenOf⟩⟩
        hInvNew
      simp [Harness.compare_contents] at hcmp
      simp [Harness.compare_contents, hcmp]

/-! ## The run loop preserves the invariant -/

theorem run_ok (ops : List Op) : ∀ (h : Harness), Inv h.fs h.reference →
    ∃ h2, h.run ops = some h2 ∧ Inv h2.fs h2.reference := by
  induction ops with
  | nil =>
    intro h hI
    exact ⟨h, rfl, hI⟩
  | cons op rest ih =>
    intro h hI
    obtain ⟨h1, hstep, hI1, _⟩ := runStep_ok h op hI
    obtain ⟨h2, hrun, hI2⟩ := ih h1 hI1
    refine ⟨h2, ?_, hI2⟩
    rw [Harness.run, hstep]
    exact hrun

theorem mkFS_Inv (ref : Reference) (hwf : refWfN ref.root = true) :
    Inv (mkFS ref) ref := by
  obtain ⟨ha, hb, hw, hre, hle⟩ := seed_wf.2 ref.children 2
  have herase : eraseL (seedL 2 ref.children).1 = ref.children := erase_seed.2 ref.children 2
  refine ⟨?_, ?_, ?_, ?_, ?_, ?_⟩
  · simpa [mkFS] using herase
  · simp only [mkFS]
    exact hw FUSE_ROOT_INODE _ (by simp [FUSE_ROOT_INODE]) (le_refl _)
  · simp only [mkFS, FUSE_ROOT_INODE]
    omega
  · simp only [mkFS, FS.root, inosF]
    refine List.nodup_cons.mpr ⟨?_, hb⟩
    intro hmem
    have := ha _ hmem
    simp [FUSE_ROOT_INODE] at this
  · have hh := namesOk_erase.1 (FS.root (mkFS ref))
    rw [show eraseF (FS.root (mkFS ref)) = ref.root from by
      simp [eraseF, FS.root, mkFS, herase, Reference.root]] at hh
    rw [← hh]
    exact hwf
  · simp only [mkFS, FS.root, remoteF]
    exact hre

/-- **C1**: for every initial reference tree (with unique names in every
directory, as the generators guarantee) and every sequence of `WriteFile`
operations, `Harness::run` succeeds: after each operation the full-tree
comparison — the recursive walk via opendir/readdir/lookup/read — matches
the reference exactly (no assertion of the harness fails), and the final
states are still observationally equivalent. -/
theorem c1_harness_run_equivalence (limit : Nat) (ref : Reference) (ops : List Op)
    (hwf : refWfN ref.root = true) :
    ∃ h2, Harness.run ⟨limit, ref, mkFS ref⟩ ops = some h2 ∧
      h2.compare_contents = true := by
  obtain ⟨h2, hrun, hI⟩ := run_ok ops ⟨limit, ref, mkFS ref⟩ (mkFS_Inv ref hwf)
  exact ⟨h2, hrun, compare_contents_of_Inv h2 hI⟩

/-- Witness for **C1**: the `regression_basic` scenario (initial tree
`{"-": {"-": file}}`, then two writes into the two directories) runs with
all checks passing. -/
theorem c1_harness_run_equivalence_witness :
    refWfN (Reference.root ⟨[("-", RNode.dir [("-", RNode.file [])])]⟩) = true ∧
    ∃ h2, Harness.run ⟨0, ⟨[("-", RNode.dir [("-", RNode.file [])])]⟩,
        mkFS ⟨[("-", RNode.dir [("-", RNode.file [])])]⟩⟩
        [Op.WriteFile "a" ⟨0⟩ [10, 10], Op.WriteFile "b" ⟨1⟩ [11]] = some h2 ∧
      h2.compare_contents = true :=
  ⟨by simp [Reference.root, refWfN, refWfL, nodupB, namesOf],
    c1_harness_run_equivalence 0 ⟨[("-", RNode.dir [("-", RNode.file [])])]⟩
      [Op.WriteFile "a" ⟨0⟩ [10, 10], Op.WriteFile "b" ⟨1⟩ [11]]
      (by simp [Reference.root, refWfN, refWfL, nodupB, namesOf])⟩

/-- **C10**: `DirectoryIndex::get` returns the directory at position
`i mod n` of the reference's directory list; that list is never empty (the
root always counts), so under `n ≥ 1` the lookup always succeeds. -/
theorem c10_directory_index_get (d : DirectoryIndex) (ref : Reference) (n : Nat)
    (hn : (ref.directories).length = n) (h1 : 1 ≤ n) :
    DirectoryIndex.get d ref = (ref.directories).get? (d.val % n) ∧
    (DirectoryIndex.get d ref).isSome ∧ ref.directories ≠ [] := by
  subst hn
  refine ⟨rfl, ?_, by simp [Reference.directories]⟩
  have hidx : d.val % (ref.directories).length < (ref.directories).length :=
    Nat.mod_lt _ (by omega)
  rw [show DirectoryIndex.get d ref =
      (ref.directories).get? (d.val % (ref.directories).length) from rfl,
    List.get?_eq_get hidx]
  rfl

/-- Witness for **C10**: a one-directory tree has two directories (the root
and `a`); index 5 wraps to 5 mod 2 = 1. -/
theorem c10_directory_index_get_witness :
    ((Reference.directories ⟨[("a", RNode.dir [])]⟩).length = 2 ∧ 1 ≤ 2) ∧
    (DirectoryIndex.get ⟨5⟩ ⟨[("a", RNode.dir [])]⟩ =
      (Reference.directories ⟨[("a", RNode.dir [])]⟩).get? (5 % 2) ∧
    (DirectoryIndex.get ⟨5⟩ ⟨[("a", RNode.dir [])]⟩).isSome ∧
    Reference.directories ⟨[("a", RNode.dir [])]⟩ ≠ []) :=
  ⟨⟨by simp [Reference.directories, dirPaths], by omega⟩,
    c10_directory_index_get ⟨5⟩ ⟨[("a", RNode.dir [])]⟩ 2
      (by simp [Reference.directories, dirPaths]) (by omega)⟩

/-- **C5**: the first entry of a `readdir` at offset 0 is `.` with the
directory's own inode, the second is `..` with the parent's inode; for the
root directory the parent is the root itself. -/
theorem c5_readdir_dot_entries (fs : FS) (d pn dj : Nat) (cs : List (String × FNode))
    (hfind : fs.find d = some (pn, FNode.dir dj cs)) :
    ∃ entries, fs.readdir d 0 0 = Except.ok entries ∧
      entries.get? 0 = some ⟨".", d, FKind.dir, 1⟩ ∧
      entries.get? 1 = some ⟨"..", pn, FKind.dir, 2⟩ ∧
      (d = FUSE_ROOT_INODE → pn = FUSE_ROOT_INODE) := by
  refine ⟨dirEntries d pn cs, by simp [FS.readdir, hfind], rfl, rfl, ?_⟩
  intro hd
  subst hd
  have hroot : fs.find FUSE_ROOT_INODE = some (FUSE_ROOT_INODE, fs.root) := by
    simp [FS.find, FS.root, findWP, FNode.ino]
  rw [hroot] at hfind
  have : FUSE_ROOT_INODE = pn := by
    have hh := hfind
    simp only [Option.some.injEq, Prod.mk.injEq] at hh
    exact hh.1
  exact this.symm

/-- Witness for **C5**: a concrete two-level filesystem, reading directory 2. -/
theorem c5_readdir_dot_entries_witness :
    (FS.find ⟨4, [("a", FNode.dir 2 [("b", FNode.file 3 false [])])]⟩ 2 =
      some (1, FNode.dir 2 [("b", FNode.file 3 false [])])) ∧
    (∃ entries, FS.readdir ⟨4, [("a", FNode.dir 2 [("b", FNode.file 3 false [])])]⟩ 2 0 0 =
        Except.ok entries ∧
      entries.get? 0 = some ⟨".", 2, FKind.dir, 1⟩ ∧
      entries.get? 1 = some ⟨"..", 1, FKind.dir, 2⟩ ∧
      (2 = FUSE_ROOT_INODE → 1 = FUSE_ROOT_INODE)) :=
  ⟨by simp [FS.find, FS.root, findWP, findWPL, FNode.ino, FUSE_ROOT_INODE],
    c5_readdir_dot_entries _ 2 1 2 [("b", FNode.file 3 false [])]
      (by simp [FS.find, FS.root, findWP, findWPL, FNode.ino, FUSE_ROOT_INODE])⟩

theorem childEntries_mem (cs : List (String × FNode)) :
    ∀ k e, e ∈ childEntries k cs →
    ∃ n c, (n, c) ∈ cs ∧ e.name = n ∧ e.ino = c.ino ∧ e.kind = c.kind := by
  induction cs with
  | nil =>
    intro k e he
    simp [childEntries] at he
  | cons e2 rest ih =>
    obtain ⟨n, c⟩ := e2
    intro k e he
    simp only [childEntries] at he
    rcases List.mem_cons.mp he with hh | hh
    · subst hh
      exact ⟨n, c, by simp, rfl, rfl, rfl⟩
    · obtain ⟨n2, c2, hm, h1, h2, h3⟩ := ih (k + 1) e hh
      exact ⟨n2, c2, List.mem_cons_of_mem _ hm, h1, h2, h3⟩

/-- **C3**: every named entry of a `readdir` reply agrees with a subsequent
`lookup` of the same name in the same directory, on both the inode number
and the file kind.  (`.` and `..` are synthetic entries that the harness
pops before this check.) -/
theorem c3_readdir_lookup_agree (fs : FS) (d pn dj off lim : Nat)
    (cs : List (String × FNode)) (entries : List DirEntry) (e : DirEntry)
    (hfind : fs.find d = some (pn, FNode.dir dj cs))
    (hnd : nodupB (namesOf cs) = true)
    (hrd : fs.readdir d off lim = Except.ok entries)
    (he : e ∈ entries) (h1 : e.name ≠ ".") (h2 : e.name ≠ "..") :
    fs.lookup d e.name = Except.ok (e.ino, e.kind) := by
  have hent : e ∈ dirEntries d pn cs := by
    simp only [FS.readdir, hfind] at hrd
    have hent2 : entries = (if lim = 0 then (dirEntries d pn cs).drop off
        else ((dirEntries d pn cs).drop off).take lim) := by
      by_cases hl : lim = 0 <;> simp [hl] at hrd <;> simp [hl, hrd.symm]
    rw [hent2] at he
    by_cases hl : lim = 0
    · rw [if_pos hl] at he
      exact List.mem_of_mem_drop he
    · rw [if_neg hl] at he
      exact List.mem_of_mem_drop (List.mem_of_mem_take he)
  simp only [dirEntries] at hent
  rcases List.mem_cons.mp hent with hh | hent2
  · rw [hh] at h1
    simp at h1
  rcases List.mem_cons.mp hent2 with hh | hent3
  · rw [hh] at h2
    simp at h2
  obtain ⟨n, c, hm, hn1, hn2, hn3⟩ := childEntries_mem cs 3 e hent3
  have hass : assocStr cs n = some c :=
    assoc_of_mem_nodup _ _ _ ((nodupB_iff _).mp hnd) hm
  rw [hn1, hn2, hn3]
  simp [FS.lookup, hfind, hass]

/-- Witness for **C3**: the entry for `b` in the directory above. -/
theorem c3_readdir_lookup_agree_witness :
    (FS.find ⟨4, [("a", FNode.dir 2 [("b", FNode.file 3 false [])])]⟩ 2 =
      some (1, FNode.dir 2 [("b", FNode.file 3 false [])]) ∧
     nodupB (namesOf [("b", FNode.file 3 false [])]) = true ∧
     FS.readdir ⟨4, [("a", FNode.dir 2 [("b", FNode.file 3 false [])])]⟩ 2 0 0 =
       Except.ok (dirEntries 2 1 [("b", FNode.file 3 false [])]) ∧
     (⟨"b", 3, FKind.file, 3⟩ : DirEntry) ∈ dirEntries 2 1 [("b", FNode.file 3 false [])] ∧
     ("b" : String) ≠ "." ∧ ("b" : String) ≠ "..") ∧
    FS.lookup ⟨4, [("a", FNode.dir 2 [("b", FNode.file 3 false [])])]⟩ 2 "b" =
      Except.ok (3, FKind.file) :=
  ⟨⟨by simp [FS.find, FS.root, findWP, findWPL, FNode.ino, FUSE_ROOT_INODE],
    by simp [nodupB, namesOf],
    by simp [FS.readdir, FS.find, FS.root, findWP, findWPL, FNode.ino, FUSE_ROOT_INODE],
    by simp [dirEntries, childEntries, FNode.ino, FNode.kind],
    by simp, by simp⟩,
   c3_readdir_lookup_agree ⟨4, [("a", FNode.dir 2 [("b", FNode.file 3 false [])])]⟩
     2 1 2 0 0 [("b", FNode.file 3 false [])] (dirEntries 2 1 [("b", FNode.file 3 false [])])
     ⟨"b", 3, FKind.file, 3⟩
     (by simp [FS.find, FS.root, findWP, findWPL, FNode.ino, FUSE_ROOT_INODE])
     (by simp [nodupB, namesOf])
     (by simp [FS.readdir, FS.find, FS.root, findWP, findWPL, FNode.ino, FUSE_ROOT_INODE])
     (by simp [dirEntries, childEntries, FNode.ino, FNode.kind])
     (by simp) (by simp)⟩

theorem walkInos_chain (fs : FS) (p2 : List String) :
    ∀ (p1 : List String) (s1 : FNode) (l : List Nat),
    (inosF fs.root).Nodup → wfF 0 fs.nextIno fs.root = true →
    getNode fs.root p1 = some s1 →
    walkInos fs s1.ino p2 = some l → List.Chain' (· < ·) (s1.ino :: l) := by
  induction p2 with
  | nil =>
    intro p1 s1 l _ _ _ hw
    simp only [walkInos, Option.some.injEq] at hw
    subst hw
    simp
  | cons c rest ih =>
    intro p1 s1 l hnd hwf hg hw
    obtain ⟨pb, hpb⟩ := parentOf_exists FUSE_ROOT_INODE fs.root p1 s1 hg
    have hfind : fs.find s1.ino = some (pb, s1) :=
      findWP_spec p1 fs.root s1 FUSE_ROOT_INODE pb hnd hg hpb
    obtain ⟨pa0, hpa0⟩ := parentOf_exists 0 fs.root p1 s1 hg
    have hwfs : wfF pa0 fs.nextIno s1 = true :=
      wf_getNode 0 fs.nextIno fs.root p1 s1 pa0 hwf hg hpa0
    cases s1 with
    | file i loc cont =>
      rw [walkInos] at hw
      simp [FS.lookup, hfind] at hw
    | dir dj cs =>
      rw [walkInos] at hw
      simp only [FS.lookup, hfind] at hw
      cases ha : assocStr cs c with
      | none =>
        rw [ha] at hw
        simp at hw
      | some cn =>
        rw [ha] at hw
        simp only [Option.map_eq_some'] at hw
        obtain ⟨l2, hwrest, hl⟩ := hw
        subst hl
        have hgc : getNode fs.root (p1 ++ [c]) = some cn := by
          rw [getNode_append, hg]
          simp [getNode, ha]
        have hchain := ih (p1 ++ [c]) cn l2 hnd hwf hgc hwrest
        simp only [wfF, Bool.and_eq_true, decide_eq_true_eq] at hwfs
        have hwcn : wfF dj fs.nextIno cn = true :=
          wfL_mem dj fs.nextIno cs c cn hwfs.2 (assocStr_mem cs c cn ha)
        have hlt : dj < cn.ino := by
          cases cn <;> simp [wfF, FNode.ino] at hwcn ⊢ <;> omega
        rw [List.chain'_cons]
        exact ⟨hlt, hchain⟩

/-- **C6**: under the inode-number discipline (every child's number strictly
exceeds its parent's), the inode numbers returned by the successive `lookup`
calls along a path are strictly increasing, hence pairwise distinct, and all
distinct from the root inode — the harness's per-path inode set never sees a
repeat. -/
theorem c6_lookup_path_inodes_distinct (fs : FS) (p : List String) (l : List Nat)
    (hnd : (inosF fs.root).Nodup)
    (hwf : wfF 0 fs.nextIno fs.root = true)
    (hw : walkInos fs FUSE_ROOT_INODE p = some l) :
    (FUSE_ROOT_INODE :: l).Nodup := by
  have hg0 : getNode fs.root [] = some fs.root := by rw [getNode]
  have hw2 : walkInos fs fs.root.ino p = some l := hw
  have hchain := walkInos_chain fs p [] fs.root l hnd hwf hg0 hw2
  have hpw : List.Pairwise (· < ·) (FUSE_ROOT_INODE :: l) :=
    List.chain'_iff_pairwise.mp hchain
  exact List.Pairwise.imp Nat.ne_of_lt hpw

/-- Witness for **C6**: a three-level path `x/y/z` yields inodes 2, 3, 4,
all distinct from each other and from the root's inode 1. -/
theorem c6_lookup_path_inodes_distinct_witness :
    ((inosF (FS.root ⟨5, [("x", FNode.dir 2 [("y", FNode.dir 3
        [("z", FNode.file 4 false [1])])])]⟩)).Nodup ∧
     wfF 0 5 (FS.root ⟨5, [("x", FNode.dir 2 [("y", FNode.dir 3
        [("z", FNode.file 4 false [1])])])]⟩) = true ∧
     walkInos ⟨5, [("x", FNode.dir 2 [("y", FNode.dir 3
        [("z", FNode.file 4 false [1])])])]⟩ FUSE_ROOT_INODE ["x", "y", "z"] =
       some [2, 3, 4]) ∧
    (FUSE_ROOT_INODE :: [2, 3, 4]).Nodup :=
  ⟨⟨by simp [FS.root, inosF, inosL]; decide,
    by simp [FS.root, wfF, wfL]; decide,
    by simp [walkInos, FS.lookup, FS.find, FS.root, findWP, findWPL, assocStr,
      FNode.ino, FNode.kind, FUSE_ROOT_INODE]⟩,
   c6_lookup_path_inodes_distinct
     ⟨5, [("x", FNode.dir 2 [("y", FNode.dir 3 [("z", FNode.file 4 false [1])])])]⟩
     ["x", "y", "z"] [2, 3, 4]
     (by simp [FS.root, inosF, inosL]; decide)
     (by simp [FS.root, wfF, wfL]; decide)
     (by simp [walkInos, FS.lookup, FS.find, FS.root, findWP, findWPL, assocStr,
       FNode.ino, FNode.kind, FUSE_ROOT_INODE])⟩

/-- **C4**: when the full path of a `WriteFile` already names a node in the
reference, `mknod` on the walked-to parent inode fails with `EEXIST`, the
harness step leaves both the filesystem and the reference unchanged, and the
subsequent full-tree comparison still matches the unmodified reference. -/
theorem c4_overwrite_eexist_unchanged (h : Harness) (name : String)
    (dIdx : DirectoryIndex) (contents : List Nat) (p : List String)
    (hInv : Inv h.fs h.reference)
    (hp : dIdx.get h.reference = some p)
    (hsome : (h.reference.lookup (p ++ [name])).isSome = true) :
    ∃ ino, walkDir h.fs FUSE_ROOT_INODE p = some ino ∧
      h.fs.mknod ino name = Except.error EEXIST ∧
      h.runStep (Op.WriteFile name dIdx contents) = some h ∧
      h.compare_contents = true := by
  obtain ⟨he, hwf, hlt, hnd, hok, hre⟩ := hInv
  have hInv2 : Inv h.fs h.reference := ⟨he, hwf, hlt, hnd, hok, hre⟩
  have heroot : eraseF h.fs.root = RNode.dir h.reference.children := by
    simp [eraseF, FS.root, he]
  have hrefwf : refWfN (RNode.dir h.reference.children) = true := by
    have hh := namesOk_erase.1 h.fs.root
    rw [heroot] at hh
    rw [hh]
    exact hok
  have hpmem : p ∈ h.reference.directories :=
    List.get?_mem (by simpa [DirectoryIndex.get] using hp)
  have hgetR : ∃ dcs, getR (RNode.dir h.reference.children) p = some (RNode.dir dcs) := by
    rcases List.mem_cons.mp hpmem with hp0 | hp0
    · exact ⟨h.reference.children, by rw [hp0]; rfl⟩
    · have hww := hrefwf
      simp only [refWfN, Bool.and_eq_true] at hww
      exact dirPaths_spec.2 h.reference.children hww.2 hww.1 p hp0
  obtain ⟨dcs, hgR⟩ := hgetR
  have hgn : ∃ d, getNode h.fs.root p = some d ∧ eraseF d = RNode.dir dcs := by
    have hh := getR_erase h.fs.root p
    rw [heroot, hgR] at hh
    cases hgg : getNode h.fs.root p with
    | none => rw [hgg] at hh; simp at hh
    | some d =>
      rw [hgg] at hh
      have hh2 : RNode.dir dcs = eraseF d := by simpa using hh
      exact ⟨d, rfl, hh2.symm⟩
  obtain ⟨d, hgd, hed⟩ := hgn
  obtain ⟨dj, csd, hdeq, hecsd⟩ := eraseF_dir_shape d _ hed
  subst hdeq
  have hwalk : walkDir h.fs FUSE_ROOT_INODE p = some dj := by
    have hh := walkDir_ok h.fs p [] h.fs.root _ hnd rfl hgd
    simpa using hh
  obtain ⟨pa, hpa⟩ := parentOf_exists FUSE_ROOT_INODE h.fs.root p _ hgd
  have hfindd : h.fs.find dj = some (pa, FNode.dir dj csd) := by
    have hh := findWP_spec p h.fs.root _ FUSE_ROOT_INODE pa hnd hgd hpa
    simpa using hh
  have hgR1 : getR (RNode.dir dcs) [name] = assocStr dcs name := by
    cases haa : assocStr dcs name <;> simp [getR, haa]
  have hlook2 : h.reference.lookup (p ++ [name]) = assocStr dcs name := by
    rw [Reference.lookup, getR_append, hgR]
    simpa using hgR1
  obtain ⟨rn, hcase⟩ : ∃ rn, assocStr dcs name = some rn := by
    rw [hlook2] at hsome
    cases haa : assocStr dcs name with
    | none => rw [haa] at hsome; simp at hsome
    | some rn => exact ⟨rn, rfl⟩
  have hassf : ∃ fn, assocStr csd name = some fn := by
    have hh := assocStr_eraseL csd name
    rw [hecsd, hcase] at hh
    cases haa : assocStr csd name with
    | none => rw [haa] at hh; simp at hh
    | some fn => exact ⟨fn, rfl⟩
  obtain ⟨fn, hfn⟩ := hassf
  have hmk : h.fs.mknod dj name = Except.error EEXIST := by
    simp [FS.mknod, hfindd, hfn]
  have hcmp := compare_contents_of_Inv h hInv2
  refine ⟨dj, hwalk, hmk, ?_, hcmp⟩
  rw [Harness.runStep, Harness.runOp]
  rw [hp]
  simp only [hwalk, hlook2, hcase, hmk]
  simp [hcmp]

/-- Witness for **C4**: writing `f` at the root when `f` already exists. -/
theorem c4_overwrite_eexist_unchanged_witness :
    (Inv ⟨3, [("f", FNode.file 2 false [1])]⟩ ⟨[("f", RNode.file [1])]⟩ ∧
     DirectoryIndex.get ⟨0⟩ ⟨[("f", RNode.file [1])]⟩ = some [] ∧
     ((Reference.lookup ⟨[("f", RNode.file [1])]⟩ ([] ++ ["f"])).isSome = true)) ∧
    (∃ ino, walkDir ⟨3, [("f", FNode.file 2 false [1])]⟩ FUSE_ROOT_INODE [] = some ino ∧
      FS.mknod ⟨3, [("f", FNode.file 2 false [1])]⟩ ino "f" = Except.error EEXIST ∧
      Harness.runStep ⟨7, ⟨[("f", RNode.file [1])]⟩, ⟨3, [("f", FNode.file 2 false [1])]⟩⟩
        (Op.WriteFile "f" ⟨0⟩ [9]) =
        some ⟨7, ⟨[("f", RNode.file [1])]⟩, ⟨3, [("f", FNode.file 2 false [1])]⟩⟩ ∧
      Harness.compare_contents
        ⟨7, ⟨[("f", RNode.file [1])]⟩, ⟨3, [("f", FNode.file 2 false [1])]⟩⟩ = true) :=
  ⟨⟨⟨by simp [eraseL, eraseF],
     by simp [wfL, wfF, FUSE_ROOT_INODE],
     by simp [FUSE_ROOT_INODE],
     by simp [FS.root, inosF, inosL]; decide,
     by simp [FS.root, namesOkF, namesOkL, nodupB, namesOf],
     by simp [FS.root, remoteF, remoteL]⟩,
    by simp [DirectoryIndex.get, Reference.directories, dirPaths],
    by simp [Reference.lookup, getR, assocStr]⟩,
   c4_overwrite_eexist_unchanged
     ⟨7, ⟨[("f", RNode.file [1])]⟩, ⟨3, [("f", FNode.file 2 false [1])]⟩⟩ "f" ⟨0⟩ [9] []
     ⟨by simp [eraseL, eraseF],
      by simp [wfL, wfF, FUSE_ROOT_INODE],
      by simp [FUSE_ROOT_INODE],
      by simp [FS.root, inosF, inosL]; decide,
      by simp [FS.root, namesOkF, namesOkL, nodupB, namesOf],
      by simp [FS.root, remoteF, remoteL]⟩
     (by simp [DirectoryIndex.get, Reference.directories, dirPaths])
     (by simp [Reference.lookup, getR, assocStr])⟩

/-- **C2**: creating a fresh file and writing a byte sequence `B` at offset 0
round-trips: `mknod` succeeds, the write-only open succeeds, `write` reports
exactly `B.length` bytes written, `release` succeeds, and afterwards a
whole-file `read` returns exactly `B` and the harness's chunked
`compare_file` against `B` succeeds. -/
theorem c2_write_read_roundtrip (fs : FS) (p : List String) (name : String)
    (dj : Nat) (csd : List (String × FNode)) (B : List Nat)
    (hnd : (inosF fs.root).Nodup)
    (hok : namesOkF fs.root = true)
    (hwf : wfL FUSE_ROOT_INODE fs.nextIno fs.rootChildren = true)
    (hlt : FUSE_ROOT_INODE < fs.nextIno)
    (hgd : getNode fs.root p = some (FNode.dir dj csd))
    (hassf : assocStr csd name = none) :
    ∃ fs1 ino fh fs2 w fs3,
      fs.mknod dj name = Except.ok (fs1, ino) ∧
      fs1.openFile ino O_WRONLY = Except.ok fh ∧
      fs1.write ino fh 0 B = Except.ok (fs2, w) ∧
      w = B.length ∧
      fs2.release ino = Except.ok fs3 ∧
      fs3.read ino fh 0 B.length = Except.ok B ∧
      compare_file fs3 ino B = true := by
  have hnmem : name ∉ namesOf csd := (assocStr_none_iff _ _).mp hassf
  have hdok : namesOkF (FNode.dir dj csd) = true := namesOk_getNode _ _ _ hok hgd
  simp only [namesOkF, Bool.and_eq_true] at hdok
  obtain ⟨pa, hpa⟩ := parentOf_exists FUSE_ROOT_INODE fs.root p _ hgd
  have hfindd : fs.find dj = some (pa, FNode.dir dj csd) := by
    have hh := findWP_spec p fs.root _ FUSE_ROOT_INODE pa hnd hgd hpa
    simpa using hh
  have hokA : ∀ (l : Bool) (c : List Nat),
      namesOkF (FNode.dir dj (csd ++ [(name, FNode.file fs.nextIno l c)])) = true := by
    intro l c
    simp only [namesOkF, Bool.and_eq_true, namesOkL_append]
    refine ⟨?_, ?_, ?_⟩
    · rw [nodupB_iff, namesOf_append]
      refine List.Nodup.append ((nodupB_iff _).mp hdok.1) (by simp [namesOf]) ?_
      intro x hx1 hx2
      simp [namesOf] at hx2
      subst hx2
      exact hnmem hx1
    · exact hdok.2
    · simp [namesOkL, namesOkF]
  obtain ⟨pre, post, hdecomp, hset⟩ := setNode_inos p fs.root _ hok hgd
  simp only [inosF] at hdecomp
  have hni_not : fs.nextIno ∉ inosF fs.root := by
    intro hmem
    have h1 : inosF fs.root = FUSE_ROOT_INODE :: inosL fs.rootChildren := by
      simp [FS.root, inosF]
    rw [h1] at hmem
    simp only [FUSE_ROOT_INODE] at hmem
    have hlt2 : 1 < fs.nextIno := by simpa [FUSE_ROOT_INODE] using hlt
    rcases List.mem_cons.mp hmem with hh | hh
    · omega
    · have := wfL_mem_bounds _ _ _ hwf _ hh
      omega
  have hnodupA : ∀ (l : Bool) (c : List Nat),
      (inosF (setNode fs.root p
        (FNode.dir dj (csd ++ [(name, FNode.file fs.nextIno l c)])))).Nodup := by
    intro l c
    rw [hset _]
    have hform : inosF (FNode.dir dj (csd ++ [(name, FNode.file fs.nextIno l c)]))
        = (dj :: inosL csd) ++ [fs.nextIno] := by
      simp [inosF, inosL_append, inosL]
    rw [hform]
    have hrw : pre ++ ((dj :: inosL csd) ++ [fs.nextIno]) ++ post
        = (pre ++ dj :: inosL csd) ++ fs.nextIno :: post := by
      simp
    rw [hrw, List.nodup_middle]
    refine List.nodup_cons.mpr ⟨?_, ?_⟩
    · intro hmem
      apply hni_not
      rw [hdecomp]
      simpa using hmem
    · have hnd2 := hnd
      rw [hdecomp] at hnd2
      simpa using hnd2
  have hupd1 : updIno fs.root dj
      (fun t => match t with
        | FNode.dir j cs2 => FNode.dir j (cs2 ++ [(name, FNode.file fs.nextIno true [])])
        | other => other) =
      setNode fs.root p
        (FNode.dir dj (csd ++ [(name, FNode.file fs.nextIno true [])])) := by
    have hh := updIno_spec p fs.root (FNode.dir dj csd)
      (fun t => match t with
        | FNode.dir j cs2 => FNode.dir j (cs2 ++ [(name, FNode.file fs.nextIno true [])])
        | other => other) hnd hok hgd
    simpa using hh
  have hmk : fs.mknod dj name =
      Except.ok (⟨fs.nextIno + 1,
        (setNode fs.root p
          (FNode.dir dj (csd ++ [(name, FNode.file fs.nextIno true [])]))).childrenOf⟩,
        fs.nextIno) := by
    simp only [FS.mknod, hfindd, hassf]
    rw [hupd1]
  have hroot1 : (⟨fs.nextIno + 1,
      (setNode fs.root p
        (FNode.dir dj (csd ++ [(name, FNode.file fs.nextIno true [])]))).childrenOf⟩ : FS).root
      = setNode fs.root p
        (FNode.dir dj (csd ++ [(name, FNode.file fs.nextIno true [])])) :=
    (setNode_root_shape fs p dj csd _ hgd).symm
  have hgq : getNode (setNode fs.root p
      (FNode.dir dj (csd ++ [(name, FNode.file fs.nextIno true [])]))) (p ++ [name])
      = some (FNode.file fs.nextIno true []) := by
    rw [getNode_setNode p fs.root _ hok hgd]
    simp [getNode, assocStr_append_none _ _ _ hassf, assocStr_cons_self]
  have hpq : parentOf FUSE_ROOT_INODE (setNode fs.root p
      (FNode.dir dj (csd ++ [(name, FNode.file fs.nextIno true [])]))) (p ++ [name])
      = some dj := by
    rw [parentOf_setNode p fs.root _ FUSE_ROOT_INODE pa hok hgd hpa]
    simp [parentOf, assocStr_append_none _ _ _ hassf, assocStr_cons_self]
  have hfind1 : findWP FUSE_ROOT_INODE (setNode fs.root p
      (FNode.dir dj (csd ++ [(name, FNode.file fs.nextIno true [])]))) fs.nextIno
      = some (dj, FNode.file fs.nextIno true []) := by
    have hh := findWP_spec (p ++ [name]) _ _ FUSE_ROOT_INODE dj (hnodupA true []) hgq hpq
    simpa using hh
  have hopen : FS.openFile ⟨fs.nextIno + 1,
      (setNode fs.root p
        (FNode.dir dj (csd ++ [(name, FNode.file fs.nextIno true [])]))).childrenOf⟩
      fs.nextIno O_WRONLY = Except.ok fs.nextIno := by
    simp [FS.openFile, FS.find, hroot1, hfind1, O_WRONLY]
  have hok1 : namesOkF (setNode fs.root p
      (FNode.dir dj (csd ++ [(name, FNode.file fs.nextIno true [])]))) = true :=
    namesOk_setNode p _ _ hok (hokA true [])
  have hupd2 : updIno (setNode fs.root p
      (FNode.dir dj (csd ++ [(name, FNode.file fs.nextIno true [])]))) fs.nextIno
      (fun t => match t with
        | FNode.file j l c => FNode.file j l (c ++ B)
        | other => other)
      = setNode fs.root p
        (FNode.dir dj (csd ++ [(name, FNode.file fs.nextIno true B)])) := by
    have hh := updIno_spec (p ++ [name]) _ (FNode.file fs.nextIno true [])
      (fun t => match t with
        | FNode.file j l c => FNode.file j l (c ++ B)
        | other => other) (hnodupA true []) hok1 hgq
    rw [setNode_setNode p fs.root _ _ _ [name] hok hgd,
      setNode_append_entry dj csd name _ _ hnmem] at hh
    simpa using hh
  have hwrite : FS.write ⟨fs.nextIno + 1,
      (setNode fs.root p
        (FNode.dir dj (csd ++ [(name, FNode.file fs.nextIno true [])]))).childrenOf⟩
      fs.nextIno fs.nextIno 0 B
      = Except.ok (⟨fs.nextIno + 1,
        (setNode fs.root p
          (FNode.dir dj (csd ++ [(name, FNode.file fs.nextIno true B)]))).childrenOf⟩,
        B.length) := by
    simp only [FS.write, FS.find, hroot1, hfind1]
    rw [hupd2]
    simp
  have hroot2 : (⟨fs.nextIno + 1,
      (setNode fs.root p
        (FNode.dir dj (csd ++ [(name, FNode.file fs.nextIno true B)]))).childrenOf⟩ : FS).root
      = setNode fs.root p
        (FNode.dir dj (csd ++ [(name, FNode.file fs.nextIno true B)])) :=
    (setNode_root_shape fs p dj csd _ hgd).symm
  have hgq1 : getNode (setNode fs.root p
      (FNode.dir dj (csd ++ [(name, FNode.file fs.nextIno true B)]))) (p ++ [name])
      = some (FNode.file fs.nextIno true B) := by
    rw [getNode_setNode p fs.root _ hok hgd]
    simp [getNode, assocStr_append_none _ _ _ hassf, assocStr_cons_self]
  have hpq1 : parentOf FUSE_ROOT_INODE (setNode fs.root p
      (FNode.dir dj (csd ++ [(name, FNode.file fs.nextIno true B)]))) (p ++ [name])
      = some dj := by
    rw [parentOf_setNode p fs.root _ FUSE_ROOT_INODE pa hok hgd hpa]
    simp [parentOf, assocStr_append_none _ _ _ hassf, assocStr_cons_self]
  have hfind2 : findWP FUSE_ROOT_INODE (setNode fs.root p
      (FNode.dir dj (csd ++ [(name, FNode.file fs.nextIno true B)]))) fs.nextIno
      = some (dj, FNode.file fs.nextIno true B) := by
    have hh := findWP_spec (p ++ [name]) _ _ FUSE_ROOT_INODE dj (hnodupA true B) hgq1 hpq1
    simpa using hh
  have hok2 : namesOkF (setNode fs.root p
      (FNode.dir dj (csd ++ [(name, FNode.file fs.nextIno true B)]))) = true :=
    namesOk_setNode p _ _ hok (hokA true B)
  have hupd3 : updIno (setNode fs.root p
      (FNode.dir dj (csd ++ [(name, FNode.file fs.nextIno true B)]))) fs.nextIno
      (fun t => match t with
        | FNode.file j _ c => FNode.file j false c
        | other => other)
      = setNode fs.root p
        (FNode.dir dj (csd ++ [(name, FNode.file fs.nextIno false B)])) := by
    have hh := updIno_spec (p ++ [name]) _ (FNode.file fs.nextIno true B)
      (fun t => match t with
        | FNode.file j _ c => FNode.file j false c
        | other => other) (hnodupA true B) hok2 hgq1
    rw [setNode_setNode p fs.root _ _ _ [name] hok hgd,
      setNode_append_entry dj csd name _ _ hnmem] at hh
    simpa using hh
  have hrel : FS.release ⟨fs.nextIno + 1,
      (setNode fs.root p
        (FNode.dir dj (csd ++ [(name, FNode.file fs.nextIno true B)]))).childrenOf⟩
      fs.nextIno
      = Except.ok ⟨fs.nextIno + 1,
        (setNode fs.root p
          (FNode.dir dj (csd ++ [(name, FNode.file fs.nextIno false B)]))).childrenOf⟩ := by
    simp only [FS.release, FS.find, hroot2, hfind2]
    rw [hupd3]
  have hroot3 : (⟨fs.nextIno + 1,
      (setNode fs.root p
        (FNode.dir dj (csd ++ [(name, FNode.file fs.nextIno false B)]))).childrenOf⟩ : FS).root
      = setNode fs.root p
        (FNode.dir dj (csd ++ [(name, FNode.file fs.nextIno false B)])) :=
    (setNode_root_shape fs p dj csd _ hgd).symm
  have hgq2 : getNode (setNode fs.root p
      (FNode.dir dj (csd ++ [(name, FNode.file fs.nextIno false B)]))) (p ++ [name])
      = some (FNode.file fs.nextIno false B) := by
    rw [getNode_setNode p fs.root _ hok hgd]
    simp [getNode, assocStr_append_none _ _ _ hassf, assocStr_cons_self]
  have hpq2 : parentOf FUSE_ROOT_INODE (setNode fs.root p
      (FNode.dir dj (csd ++ [(name, FNode.file fs.nextIno false B)]))) (p ++ [name])
      = some dj := by
    rw [parentOf_setNode p fs.root _ FUSE_ROOT_INODE pa hok hgd hpa]
    simp [parentOf, assocStr_append_none _ _ _ hassf, assocStr_cons_self]
  have hfind3 : (⟨fs.nextIno + 1,
      (setNode fs.root p
        (FNode.dir dj (csd ++ [(name, FNode.file fs.nextIno false B)]))).childrenOf⟩ : FS).find
      fs.nextIno = some (dj, FNode.file fs.nextIno false B) := by
    have hh := findWP_spec (p ++ [name]) _ _ FUSE_ROOT_INODE dj (hnodupA false B) hgq2 hpq2
    rw [FS.find, hroot3]
    simpa using hh
  have hread : FS.read ⟨fs.nextIno + 1,
      (setNode fs.root p
        (FNode.dir dj (csd ++ [(name, FNode.file fs.nextIno false B)]))).childrenOf⟩
      fs.nextIno fs.nextIno 0 B.length = Except.ok B := by
    simp [FS.read, hfind3]
  have hcmp : compare_file ⟨fs.nextIno + 1,
      (setNode fs.root p
        (FNode.dir dj (csd ++ [(name, FNode.file fs.nextIno false B)]))).childrenOf⟩
      fs.nextIno B = true :=
    compare_file_ok _ fs.nextIno dj fs.nextIno B hfind3
  exact ⟨_, fs.nextIno, fs.nextIno, _, B.length, _,
    hmk, hopen, hwrite, rfl, hrel, hread, hcmp⟩

/-- Witness for **C2**: writing the two bytes `[1, 2]` to a fresh file `g`
in an empty root. -/
theorem c2_write_read_roundtrip_witness :
    ((inosF (FS.root ⟨2, []⟩)).Nodup ∧
     namesOkF (FS.root ⟨2, []⟩) = true ∧
     wfL FUSE_ROOT_INODE (2 : Nat) [] = true ∧
     FUSE_ROOT_INODE < (2 : Nat) ∧
     getNode (FS.root ⟨2, []⟩) [] = some (FNode.dir 1 []) ∧
     assocStr ([] : List (String × FNode)) "g" = none) ∧
    (∃ fs1 ino fh fs2 w fs3,
      FS.mknod ⟨2, []⟩ 1 "g" = Except.ok (fs1, ino) ∧
      fs1.openFile ino O_WRONLY = Except.ok fh ∧
      fs1.write ino fh 0 [1, 2] = Except.ok (fs2, w) ∧
      w = ([1, 2] : List Nat).length ∧
      fs2.release ino = Except.ok fs3 ∧
      fs3.read ino fh 0 ([1, 2] : List Nat).length = Except.ok [1, 2] ∧
      compare_file fs3 ino [1, 2] = true) :=
  ⟨⟨by simp [FS.root, inosF, inosL],
    by simp [FS.root, namesOkF, namesOkL, nodupB, namesOf],
    by simp [wfL],
    by simp [FUSE_ROOT_INODE],
    by simp [getNode, FS.root, FUSE_ROOT_INODE],
    by simp [assocStr]⟩,
   c2_write_read_roundtrip ⟨2, []⟩ [] "g" 1 [] [1, 2]
     (by simp [FS.root, inosF, inosL])
     (by simp [FS.root, namesOkF, namesOkL, nodupB, namesOf])
     (by simp [wfL])
     (by simp [FUSE_ROOT_INODE])
     (by simp [getNode, FS.root, FUSE_ROOT_INODE])
     (by simp [assocStr])⟩

theorem leBytes_length (k x : Nat) : (leBytes k x).length = k := by
  induction k generalizing x with
  | zero => rfl
  | succ k ih => simp [leBytes, ih]

theorem md5_length (msg : List Nat) : (md5 msg).length = 16 := by
  simp [md5, leBytes_length]

theorem hexChar_mem (n : Nat) : hexChar n ∈ hexDigits := by
  rcases Nat.lt_or_ge n 16 with h | h
  · interval_cases n <;> decide
  · have hd : hexDigits.getD n '0' = '0' :=
      List.getD_eq_default _ _ (by simp [hexDigits]; omega)
    rw [hexChar, hd]
    decide

theorem hexFold_length (bs : List Nat) :
    (bs.foldr (fun b acc => hexChar (b / 16 % 16) :: hexChar (b % 16) :: acc) []).length
      = 2 * bs.length := by
  induction bs with
  | nil => rfl
  | cons b rest ih => simp [List.foldr, ih]; ring

theorem hexOfBytes_length (bs : List Nat) : (hexOfBytes bs).length = 2 * bs.length := by
  have h : (hexOfBytes bs).length
      = (bs.foldr (fun b acc => hexChar (b / 16 % 16) :: hexChar (b % 16) :: acc) []).length :=
    rfl
  rw [h, hexFold_length]

theorem hexOfBytes_mem (bs : List Nat) :
    ∀ c ∈ (hexOfBytes bs).toList, c ∈ hexDigits := by
  have h : (hexOfBytes bs).toList
      = bs.foldr (fun b acc => hexChar (b / 16 % 16) :: hexChar (b % 16) :: acc) [] := rfl
  rw [h]
  clear h
  induction bs with
  | nil => simp
  | cons b rest ih =>
    intro c hc
    simp only [List.foldr] at hc
    rcases List.mem_cons.mp hc with hh | hc2
    · rw [hh]; exact hexChar_mem _
    rcases List.mem_cons.mp hc2 with hh | hc3
    · rw [hh]; exact hexChar_mem _
    · exact ih c hc3

set_option maxRecDepth 1000000 in
/-- **C7**: `ETag` has exactly two constructors and they behave as
specified: `from_str` never fails and round-trips through `as_str` (every
`ETag` arises this way, and the error type is uninhabited), and
`from_object_bytes` produces the lowercase hexadecimal MD5 digest of the
data — a 32-character string over the lowercase hex alphabet, agreeing with
the RFC 1321 digest (checked here on the empty input's well-known value). -/
theorem c7_etag_constructors :
    (∀ s : String, ETag.from_str s = Except.ok ⟨s⟩) ∧
    (∀ s : String, ∃ t, ETag.from_str s = Except.ok t ∧ t.as_str = s) ∧
    (∀ t : ETag, ∃ s, ETag.from_str s = Except.ok t) ∧
    (∀ _e : ParseError, False) ∧
    (∀ data : List Nat, (ETag.from_object_bytes data).as_str = hexOfBytes (md5 data)) ∧
    (∀ data : List Nat, (ETag.from_object_bytes data).as_str.length = 32) ∧
    (∀ data : List Nat, ∀ c ∈ (ETag.from_object_bytes data).as_str.toList, c ∈ hexDigits) ∧
    (ETag.from_object_bytes []).as_str = "d41d8cd98f00b204e9800998ecf8427e" := by
  refine ⟨fun s => rfl, fun s => ⟨⟨s⟩, rfl, rfl⟩, ?_, ?_, fun data => rfl, ?_, ?_, ?_⟩
  · intro t
    obtain ⟨s⟩ := t
    exact ⟨s, rfl⟩
  · intro e
    cases e
  · intro data
    have h : (ETag.from_object_bytes data).as_str = hexOfBytes (md5 data) := rfl
    rw [h, hexOfBytes_length, md5_length]
  · intro data
    have h : (ETag.from_object_bytes data).as_str = hexOfBytes (md5 data) := rfl
    rw [h]
    exact hexOfBytes_mem _
  · decide

/-- **C8**: `delete_object` returns `Ok` even when the named key is absent
from the bucket, and its only possible service error is `NoSuchBucket`,
raised exactly when the bucket does not exist. -/
theorem c8_delete_object_absent_ok (st : MockStore) (bucket key : String)
    (objs : List (String × List Nat))
    (hb : assocStr st.buckets bucket = some objs)
    (hk : assocStr objs key = none) :
    (∃ st2, st.delete_object bucket key = Except.ok (st2, {})) ∧
    (∀ (st2 : MockStore) (b2 k2 : String) (e : ObjectClientError DeleteObjectError Empty),
      MockStore.delete_object st2 b2 k2 = Except.error e →
      e = ObjectClientError.ServiceError DeleteObjectError.NoSuchBucket ∧
      assocStr st2.buckets b2 = none) := by
  have hkeep := hk
  constructor
  · refine ⟨⟨st.buckets.map fun e =>
        if e.1 = bucket then (e.1, objs.filter fun o => !(o.1 == key)) else e⟩, ?_⟩
    simp [MockStore.delete_object, hb]
  · intro st2 b2 k2 e he
    cases hb2 : assocStr st2.buckets b2 with
    | none =>
      simp only [MockStore.delete_object, hb2] at he
      simp at he
      exact ⟨he.symm, rfl⟩
    | some o2 =>
      simp only [MockStore.delete_object, hb2] at he
      simp at he

/-- Witness for **C8**: deleting an absent key `nope` from bucket `b`. -/
theorem c8_delete_object_absent_ok_witness :
    (assocStr (MockStore.buckets ⟨[("b", [("k1", [1])])]⟩) "b" = some [("k1", [1])] ∧
     assocStr [("k1", ([1] : List Nat))] "nope" = none) ∧
    ((∃ st2, MockStore.delete_object ⟨[("b", [("k1", [1])])]⟩ "b" "nope" =
        Except.ok (st2, {})) ∧
     (∀ (st2 : MockStore) (b2 k2 : String) (e : ObjectClientError DeleteObjectError Empty),
       MockStore.delete_object st2 b2 k2 = Except.error e →
       e = ObjectClientError.ServiceError DeleteObjectError.NoSuchBucket ∧
       assocStr st2.buckets b2 = none)) :=
  ⟨⟨by simp [assocStr], by simp [assocStr]⟩,
   c8_delete_object_absent_ok ⟨[("b", [("k1", [1])])]⟩ "b" "nope" [("k1", [1])]
     (by simp [assocStr]) (by simp [assocStr])⟩

/-- **C9**: every object-client error is either a `ServiceError` of the
operation's specific kind or an opaque `ClientError`; the per-operation
service-error kinds are exactly the spec's table — `get` only
`NoSuchBucket`, `NoSuchKey` or `PreconditionFailed` (pairwise distinct),
`head` only `NotFound`, `list` and `put` only `NoSuchBucket`. -/
theorem c9_error_taxonomy :
    (∀ (S C : Type) (e : ObjectClientError S C),
      (∃ s, e = ObjectClientError.ServiceError s) ∨
      (∃ c, e = ObjectClientError.ClientError c)) ∧
    (∀ e : GetObjectError, e = GetObjectError.NoSuchBucket ∨ e = GetObjectError.NoSuchKey ∨
      e = GetObjectError.PreconditionFailed) ∧
    (GetObjectError.NoSuchBucket ≠ GetObjectError.NoSuchKey ∧
     GetObjectError.NoSuchBucket ≠ GetObjectError.PreconditionFailed ∧
     GetObjectError.NoSuchKey ≠ GetObjectError.PreconditionFailed) ∧
    (∀ e : HeadObjectError, e = HeadObjectError.NotFound) ∧
    (∀ e : ListObjectsError, e = ListObjectsError.NoSuchBucket) ∧
    (∀ e : PutObjectError, e = PutObjectError.NoSuchBucket) := by
  refine ⟨?_, ?_, by decide, ?_, ?_, ?_⟩
  · intro S C e
    cases e with
    | ServiceError s => exact Or.inl ⟨s, rfl⟩
    | ClientError c => exact Or.inr ⟨c, rfl⟩
  · intro e
    cases e
    · exact Or.inl rfl
    · exact Or.inr (Or.inl rfl)
    · exact Or.inr (Or.inr rfl)
  · intro e
    cases e
    rfl
  · intro e
    cases e
    rfl
  · intro e
    cases e
    rfl
